import Mathlib

/-
  Verification of the free-space manager of `allocator.c`.

  Shallow embedding conventions:

  * Machine integers (`size_t`, pointers) are modelled as `Nat`; the wrap-around
    of 64-bit arithmetic is made explicit with `% UINT64` (and `sub64`) at the
    spots where the C code performs `size_t` addition/subtraction on values that
    may wrap.
  * The global singly linked list of `struct mem_block` headers (threaded by the
    `next` field, anchored at `g_head`) is represented as a Lean `List MemBlock`
    in next-pointer order: the `next` of a block is the following list element
    (end of list = `NULL`), and `g_head` is the first element.  Every list edit
    of the C code (append at tail, insert after a block on split, stitching past
    an unmapped region) is translated as the corresponding structural edit.
  * Each `MemBlock` additionally records its own address `addr`, since the code
    does pointer arithmetic on header addresses (`new = allocated + usage`,
    region bound checks, `ptr - sizeof(struct mem_block)`).
  * Payload bytes live in a separate store `Nat → Nat`; `memset`/`memcpy` act on
    it.  Header records and payload bytes are kept apart (the embedding does not
    model type-punning writes of one over the other).
  * `mmap` is deterministic in the model: a fresh region is placed at the
    state's `nextMap` cursor, which then advances; `mmap` fails exactly when the
    environment says so (`Env.mmapOk = false`) or when the requested length is
    zero (`mmap(NULL, 0, ...)` fails on Linux).  A failing OS call, and every C
    execution step that is undefined behaviour (dereference of an invalid or
    null header pointer), is made explicit in the result type.
  * `getenv("ALLOCATOR_ALGORITHM")` / `getenv("ALLOCATOR_SCRIBBLE")` are the
    `algo` / `scribble` fields of `Env`.
  * The `pthread_mutex` wrappers (`malloc`, `free`, ...) only serialize calls;
    sequential calls to the public entries are modelled as sequential
    applications of the `*_unsafe` functions.
-/

namespace Allocator

def UINT64 : Nat := 2 ^ 64

/-- Modelled from the spec: `sizeof(struct mem_block)`.  The header is declared
in `allocator.h`, which is not part of the sources; the spec fixes only that it
is a fixed-layout record with fields `alloc_id`, `name` (fixed-capacity string),
`size`, `usage`, `region_start`, `region_size`, `next`.  80 bytes matches an
8-byte id, a 32-byte name array and four 8-byte size/pointer fields.  No claim
depends on the particular value. -/
def HDR_SIZE : Nat := 80

/-- `getpagesize()` of the host, fixed at the usual 4096. -/
def PAGE_SIZE : Nat := 4096

/-- Modelled from the spec: the capacity of the header's fixed-capacity `name`
field ("short, null-terminated"), declared in the missing `allocator.h`;
32 bytes matches the accounting of `HDR_SIZE`. -/
def NAME_CAP : Nat := 32

/-- One `struct mem_block` header.  `addr` is the address the header lives at;
the `next` pointer is represented positionally (see the file comment). -/
structure MemBlock where
  addr : Nat
  alloc_id : Nat
  name : String
  size : Nat
  usage : Nat
  region_start : Nat
  region_size : Nat
deriving DecidableEq

/-- The allocator's global mutable state: the global list (`g_head` plus the
`next` chain, as a list), the allocation counter `g_allocations`, and the
model's cursor for fresh `mmap` placements. -/
structure AllocState where
  blocks : List MemBlock
  g_allocations : Nat
  nextMap : Nat
deriving DecidableEq

/-- The process environment a call runs under: the two environment variables
and whether the OS accepts a (nonempty) mapping request. -/
structure Env where
  algo : Option String
  scribble : Option String
  mmapOk : Bool
deriving DecidableEq

/-- 64-bit wrap-around subtraction: `(a - b)` on `size_t` values. -/
def sub64 (a b : Nat) : Nat := (a % UINT64 + (UINT64 - b % UINT64)) % UINT64

/-- The alignment step of `malloc_unsafe` / `realloc_unsafe`:
`if (size % 8 != 0) size = size + (8 - size % 8);` in `size_t` arithmetic. -/
def align8 (s : Nat) : Nat :=
  if s % 8 = 0 then s else (s + (8 - s % 8)) % UINT64

/-- `first_fit` (allocator.c:151): first block on the list with
`current->size >= size + current->usage`. -/
def first_fit (size : Nat) : List MemBlock → Option MemBlock
  | [] => none
  | current :: rest =>
    if (size + current.usage) % UINT64 ≤ current.size then some current
    else first_fit size rest

/-- The loop of `best_fit` (allocator.c:181), carrying the current `best`. -/
def best_fit_go (size : Nat) : List MemBlock → Option MemBlock → Option MemBlock
  | [], best => best
  | current :: rest, best =>
    if (size + current.usage) % UINT64 ≤ current.size then
      match best with
      | none => best_fit_go size rest (some current)
      | some b =>
        if sub64 current.size current.usage < sub64 b.size b.usage then
          best_fit_go size rest (some current)
        else
          best_fit_go size rest (some b)
    else best_fit_go size rest best

/-- `best_fit` (allocator.c:181): suitable block with the least
`current->size - current->usage`, earlier block kept on ties. -/
def best_fit (size : Nat) (blocks : List MemBlock) : Option MemBlock :=
  best_fit_go size blocks none

/-- The loop of `worst_fit` (allocator.c:214), carrying the current `worst`. -/
def worst_fit_go (size : Nat) : List MemBlock → Option MemBlock → Option MemBlock
  | [], worst => worst
  | current :: rest, worst =>
    if (size + current.usage) % UINT64 ≤ current.size then
      match worst with
      | none => worst_fit_go size rest (some current)
      | some b =>
        if sub64 b.size b.usage < sub64 current.size current.usage then
          worst_fit_go size rest (some current)
        else
          worst_fit_go size rest (some b)
    else worst_fit_go size rest worst

/-- `worst_fit` (allocator.c:214): suitable block with the greatest
`current->size - current->usage`, earlier block kept on ties. -/
def worst_fit (size : Nat) (blocks : List MemBlock) : Option MemBlock :=
  worst_fit_go size blocks none

/-- `reuse` (allocator.c:248): dispatch on `getenv("ALLOCATOR_ALGORITHM")`,
defaulting to `"first_fit"` when unset; any unrecognized value leaves the
result `NULL`. -/
def reuse (env : Env) (size : Nat) (blocks : List MemBlock) : Option MemBlock :=
  let algo := match env.algo with
    | none => "first_fit"
    | some a => a
  if algo = "first_fit" then first_fit size blocks
  else if algo = "best_fit" then best_fit size blocks
  else if algo = "worst_fit" then worst_fit size blocks
  else none

/-- `expand_heap` (allocator.c:280): round the request up to whole pages, `mmap`
a fresh region, initialize its single header (fresh `alloc_id`, empty name,
`size = region_size`, `usage = 0`, `region_start = self`, `next = NULL`) and
append it at the tail of the global list.  `mmap` failure (refused by the OS, or
a zero-length request) yields `none`, as the C function returns `NULL`. -/
def expand_heap (env : Env) (st : AllocState) (size : Nat) :
    Option (MemBlock × AllocState) :=
  let num_pages := size / PAGE_SIZE + (if size % PAGE_SIZE = 0 then 0 else 1)
  if env.mmapOk ∧ 0 < num_pages then
    let block : MemBlock :=
      { addr := st.nextMap
        alloc_id := st.g_allocations
        name := ""
        size := num_pages * PAGE_SIZE
        usage := 0
        region_start := st.nextMap
        region_size := num_pages * PAGE_SIZE }
    some (block,
      { blocks := st.blocks ++ [block]
        g_allocations := st.g_allocations + 1
        nextMap := st.nextMap + num_pages * PAGE_SIZE })
  else none

/-- Update the `usage` field of the header at address `a`
(a field assignment through a header pointer). -/
def setUsage (bs : List MemBlock) (a n : Nat) : List MemBlock :=
  bs.map fun b => if b.addr = a then { b with usage := n } else b

/-- Update the `name` field of the header at address `a`. -/
def setName (bs : List MemBlock) (a : Nat) (nm : String) : List MemBlock :=
  bs.map fun b => if b.addr = a then { b with name := nm } else b

/-- The split of `malloc_unsafe` (allocator.c:358-373): at the chosen header
(address `a`), shrink `size` to `usage` and link the new header `nb` right
after it (`new->next = allocated->next; allocated->next = new`). -/
def splitInsert (a : Nat) (nb : MemBlock) : List MemBlock → List MemBlock
  | [] => []
  | b :: rest =>
    if b.addr = a then { b with size := b.usage } :: nb :: rest
    else b :: splitInsert a nb rest

/-- `memset(dst, val, n)` on the payload byte store. -/
def memset (store : Nat → Nat) (dst val n : Nat) : Nat → Nat :=
  fun a => if dst ≤ a ∧ a < dst + n then val else store a

/-- `memcpy(dst, src, n)` on the payload byte store. -/
def memcpy (store : Nat → Nat) (dst src n : Nat) : Nat → Nat :=
  fun a => if dst ≤ a ∧ a < dst + n then store (src + (a - dst)) else store a

/-- Outcome of a call: either a returned payload pointer together with the new
global state and byte store, or a crash (undefined behaviour actually executed,
e.g. a dereference of a null or invalid header pointer). -/
inductive MallocResult where
  | crash : MallocResult
  | ok : Nat → AllocState → (Nat → Nat) → MallocResult

def MallocResult.payloadOf : MallocResult → Option Nat
  | .crash => none
  | .ok p _ _ => some p

def MallocResult.stateOf : MallocResult → Option AllocState
  | .crash => none
  | .ok _ st _ => some st

def MallocResult.byteAt : MallocResult → Nat → Option Nat
  | .crash, _ => none
  | .ok _ _ sto, a => some (sto a)

/-- allocator.c:342-347: try `reuse`, fall back to `expand_heap`. -/
def choose_block (env : Env) (st : AllocState) (actual_size : Nat) :
    Option (MemBlock × AllocState) :=
  match reuse env actual_size st.blocks with
  | some b => some (b, st)
  | none => expand_heap env st actual_size

/-- `malloc_unsafe` (allocator.c:328): align the request to 8 bytes, add the
header size, pick a block via `reuse`/`expand_heap`, then either take the whole
chosen block (`usage == 0`) or split its tail.  When both `reuse` and
`expand_heap` fail the C code goes on to read `allocated->size` and
`allocated->usage` through the `NULL` pointer (lines 350, 355): that path is a
crash, not a `NULL` return. -/
def malloc_unsafe (env : Env) (st : AllocState) (store : Nat → Nat)
    (size0 : Nat) : MallocResult :=
  let size := align8 size0
  let actual_size := (size + HDR_SIZE) % UINT64
  match choose_block env st actual_size with
  | none => .crash
  | some (allocated, st1) =>
    if allocated.usage = 0 then
      let st2 := { st1 with blocks := setUsage st1.blocks allocated.addr actual_size }
      let payload := (allocated.addr + HDR_SIZE) % UINT64
      let store2 := if env.scribble = some "1" then memset store payload 0xaa size else store
      .ok payload st2 store2
    else
      let nb : MemBlock :=
        { addr := (allocated.addr + allocated.usage) % UINT64
          alloc_id := st1.g_allocations
          name := ""
          size := sub64 allocated.size allocated.usage
          usage := actual_size
          region_start := allocated.region_start
          region_size := allocated.region_size }
      let st2 := { st1 with
        blocks := splitInsert allocated.addr nb st1.blocks
        g_allocations := st1.g_allocations + 1 }
      let payload := (nb.addr + HDR_SIZE) % UINT64
      let store2 := if env.scribble = some "1" then memset store payload 0xaa size else store
      .ok payload st2 store2

/-- `malloc` (allocator.c:396): the mutex wrapper around `malloc_unsafe`. -/
def malloc (env : Env) (st : AllocState) (store : Nat → Nat)
    (size : Nat) : MallocResult :=
  malloc_unsafe env st store size

/-- `malloc_name_unsafe` (allocator.c:422): allocate, then
`strcpy(block->name, name)` into the header right before the payload. -/
def malloc_name_unsafe (env : Env) (st : AllocState) (store : Nat → Nat)
    (size : Nat) (nm : String) : MallocResult :=
  match malloc_unsafe env st store size with
  | .crash => .crash
  | .ok p st1 sto1 =>
      .ok p { st1 with blocks := setName st1.blocks (sub64 p HDR_SIZE) nm } sto1

/-- The byte image `strcpy` writes for a source string: every byte of the
string followed by the terminating null byte, with no length bound. -/
def strcpyImage (s : String) : List Char := s.data ++ [Char.ofNat 0]

/-- The loop at allocator.c:490-499: walk from the region head while the
current header lies inside `[rh, re)`; stop with `region_empty = false` at the
first header with nonzero `usage`; otherwise run past the region and return the
rest of the list (whose head is `next_region`, the first header outside). -/
def region_walk (rh re : Nat) : List MemBlock → Bool × List MemBlock
  | [] => (true, [])
  | b :: rest =>
    if rh ≤ b.addr ∧ b.addr < re then
      if b.usage = 0 then region_walk rh re rest
      else (false, b :: rest)
    else (true, b :: rest)

/-- Split the global list at the header whose address is `a`: the part strictly
before it, and the part from it on (empty when no such header is on the list).
This is how the spine model renders the C code's jump to the header at address
`region_start` and the predecessor scan of the stitching code. -/
def split_at_addr (a : Nat) : List MemBlock → List MemBlock × List MemBlock
  | [] => ([], [])
  | b :: rest =>
    if b.addr = a then ([], b :: rest)
    else
      let ps := split_at_addr a rest
      (b :: ps.1, ps.2)

/-- `free_unsafe` (allocator.c:468): `NULL` is a no-op; otherwise zero the
`usage` of the header at `ptr - sizeof(struct mem_block)`, walk its region, and
when every header of the region is unused, unmap the region and stitch the
global list past it (head fix-up or predecessor fix-up).  A `ptr` whose header
is not on the list, or a `region_start` that is not on the list, makes the C
code write or read through a wild pointer: `none`. -/
def free_unsafe (st : AllocState) (ptr : Nat) : Option AllocState :=
  if ptr = 0 then some st
  else
    let a := sub64 ptr HDR_SIZE
    match st.blocks.find? (fun b => b.addr == a) with
    | none => none
    | some cur =>
      let blocks1 := setUsage st.blocks a 0
      let rh := cur.region_start
      match blocks1.find? (fun b => b.addr == rh) with
      | none => none
      | some rhb =>
        let re := (rh + rhb.region_size) % UINT64
        let ps := split_at_addr rh blocks1
        match ps.2 with
        | [] => none
        | suf =>
          let wr := region_walk rh re suf
          if wr.1 then some { st with blocks := ps.1 ++ wr.2 }
          else some { st with blocks := blocks1 }

/-- `free` (allocator.c:535): `NULL` check plus the mutex wrapper. -/
def free (st : AllocState) (ptr : Nat) : Option AllocState :=
  if ptr = 0 then some st else free_unsafe st ptr

/-- `calloc` (allocator.c:563): allocate `nmemb * size` bytes — the product is
taken in `size_t`, i.e. modulo `2^64`, with no overflow check — and zero that
many bytes of the returned payload. -/
def calloc (env : Env) (st : AllocState) (store : Nat → Nat)
    (nmemb size : Nat) : MallocResult :=
  let n := (nmemb * size) % UINT64
  match malloc_unsafe env st store n with
  | .crash => .crash
  | .ok p st1 sto1 => .ok p st1 (memset sto1 p 0 n)

/-- `realloc_unsafe` (allocator.c:593): `NULL` pointer means plain allocation;
size 0 frees and returns `NULL`; otherwise align and add the header size, grow
or shrink in place when the current block's `size` suffices, else allocate
fresh, `memcpy` with the new (aligned) size as the copy length, free the old
block and return the new payload. -/
def realloc_unsafe (env : Env) (st : AllocState) (store : Nat → Nat)
    (ptr size0 : Nat) : MallocResult :=
  if ptr = 0 then malloc_unsafe env st store size0
  else if size0 = 0 then
    match free_unsafe st ptr with
    | none => .crash
    | some st1 => .ok 0 st1 store
  else
    let size := align8 size0
    let actual_size := (size + HDR_SIZE) % UINT64
    let a := sub64 ptr HDR_SIZE
    match st.blocks.find? (fun b => b.addr == a) with
    | none => .crash
    | some current =>
      if actual_size ≤ current.size then
        .ok ptr { st with blocks := setUsage st.blocks a actual_size } store
      else
        match malloc_unsafe env st store size with
        | .crash => .crash
        | .ok np st1 sto1 =>
          let sto2 := memcpy sto1 np ptr size
          match free_unsafe st1 ptr with
          | none => .crash
          | some st2 => .ok np st2 sto2

/-- One line of the dump of `write_memory` (allocator.c:89), with the formatted
text abstracted to its fields in emission order: `[REGION] start-end size` and
`[BLOCK] start-end (alloc_id) 'name' size usage user_visible`. -/
inductive DumpLine where
  | region : Nat → Nat → Nat → DumpLine
  | block : Nat → Nat → Nat → String → Nat → Nat → Nat → DumpLine
deriving DecidableEq

/-- `write_memory` (allocator.c:89): walk the global list; a header with
`region_start == self` is preceded by its `[REGION]` line; every header emits a
`[BLOCK]` line.  Note the end bound the code prints for a block:
`((void *) current_block) + current_block->region_size` (lines 108-109). -/
def write_memory : List MemBlock → List DumpLine
  | [] => []
  | b :: rest =>
    (if b.region_start = b.addr then
      [DumpLine.region b.addr ((b.addr + b.region_size) % UINT64) b.region_size]
     else []) ++
    DumpLine.block b.addr ((b.addr + b.region_size) % UINT64) b.alloc_id b.name
      b.size b.usage (if b.usage = 0 then 0 else sub64 b.usage HDR_SIZE) ::
    write_memory rest

/-- A public call, for whole-program traces. -/
inductive Call where
  | alloc : Nat → Call
  | allocName : Nat → String → Call
  | callocC : Nat → Nat → Call
  | freeC : Nat → Call
  | reallocC : Nat → Nat → Call

/-- Execute one public call (the mutex wrappers serialize them, so a sequential
trace is function composition). -/
def step (env : Env) (st : AllocState) (store : Nat → Nat) :
    Call → Option (AllocState × (Nat → Nat))
  | .alloc s =>
    match malloc_unsafe env st store s with
    | .crash => none
    | .ok _ st1 sto1 => some (st1, sto1)
  | .allocName s nm =>
    match malloc_name_unsafe env st store s nm with
    | .crash => none
    | .ok _ st1 sto1 => some (st1, sto1)
  | .callocC n s =>
    match calloc env st store n s with
    | .crash => none
    | .ok _ st1 sto1 => some (st1, sto1)
  | .freeC p =>
    match free st p with
    | none => none
    | some st1 => some (st1, store)
  | .reallocC p s =>
    match realloc_unsafe env st store p s with
    | .crash => none
    | .ok _ st1 sto1 => some (st1, sto1)

/-- Run a trace of public calls from a given configuration. -/
def runFrom (env : Env) : AllocState → (Nat → Nat) → List Call →
    Option (AllocState × (Nat → Nat))
  | st, store, [] => some (st, store)
  | st, store, c :: cs =>
    match step env st store c with
    | none => none
    | some (st1, sto1) => runFrom env st1 sto1 cs

/-- The state before the first call: empty list, counter 0; the model places
the first region at one page. -/
def initState : AllocState := { blocks := [], g_allocations := 0, nextMap := PAGE_SIZE }

/-- All payload bytes zero before the first call. -/
def store0 : Nat → Nat := fun _ => 0

/-- A benign environment: both variables unset, the OS accepting mappings. -/
def env0 : Env := { algo := none, scribble := none, mmapOk := true }

/-- The state after a trace of public calls from the initial configuration
(`none` when some call crashed), with the byte store projected away. -/
def runS (env : Env) (cs : List Call) : Option AllocState :=
  (runFrom env initState store0 cs).map (fun x => x.1)

/-! ### Claim-side definitions

These render the spec's vocabulary, to be compared with the source-side
functions above. -/

/-- The spec's `align8`: mathematical rounding of `s` up to a multiple of 8
("Round the requested payload `s` up to a multiple of 8", spec 4.3 step 1). -/
def align8_spec (s : Nat) : Nat := 8 * ((s + 7) / 8)

/-- The spec's placement candidate: a header whose tail slack is at least
`need` (`H.size - H.usage >= need`, read over the mathematical values). -/
def IsCand (need : Nat) (b : MemBlock) : Prop := need ≤ b.size - b.usage

instance (need : Nat) (b : MemBlock) : Decidable (IsCand need b) :=
  inferInstanceAs (Decidable (need ≤ b.size - b.usage))

/-- A header's tail slack, `H.size - H.usage`. -/
def slackOf (b : MemBlock) : Nat := b.size - b.usage

/-- Basic well-formedness of a block list, all of it part of the spec's data
model: header addresses are pairwise distinct, a block's used part fits in the
block (`usage <= size`, spec invariant 3), and all address arithmetic on a
block stays below `2^64`. -/
def BlocksWF (bs : List MemBlock) : Prop :=
  (bs.map MemBlock.addr).Nodup ∧
  ∀ b ∈ bs, b.usage ≤ b.size ∧ b.addr + b.size + HDR_SIZE < UINT64

instance (bs : List MemBlock) : Decidable (BlocksWF bs) := by
  unfold BlocksWF; infer_instance

/-- The headers of the region identified by its `region_start` value, in global
list order. -/
def regionBlocksOf (st : AllocState) (r : Nat) : List MemBlock :=
  st.blocks.filter (fun b => b.region_start == r)

/-- The property claimed by spec invariant 4: every region holds at most one
free header (`usage == 0`), and a free header is the last header of its
region. -/
def freeLastInv (st : AllocState) : Prop :=
  ∀ b ∈ st.blocks,
    (regionBlocksOf st b.region_start).countP (fun c => c.usage == 0) ≤ 1 ∧
    (b.usage = 0 → (regionBlocksOf st b.region_start).getLast? = some b)

instance (st : AllocState) : Decidable (freeLastInv st) := by
  unfold freeLastInv; infer_instance

/-- The `alloc_id` of the header right before payload pointer `p`. -/
def idAtPayload (st : AllocState) (p : Nat) : Option Nat :=
  (st.blocks.find? (fun b => b.addr == sub64 p HDR_SIZE)).map MemBlock.alloc_id

/-- The `alloc_id`s of the blocks returned by the successful allocations of a
trace, in program order (recorded for the three allocating entries; `free` and
`realloc` run without recording). -/
def returnedIds (env : Env) : AllocState → (Nat → Nat) → List Call → Option (List Nat)
  | _, _, [] => some []
  | st, store, Call.alloc s :: cs =>
    match malloc_unsafe env st store s with
    | .crash => none
    | .ok p st1 sto1 =>
      match idAtPayload st1 p, returnedIds env st1 sto1 cs with
      | some i, some l => some (i :: l)
      | _, _ => none
  | st, store, Call.allocName s nm :: cs =>
    match malloc_name_unsafe env st store s nm with
    | .crash => none
    | .ok p st1 sto1 =>
      match idAtPayload st1 p, returnedIds env st1 sto1 cs with
      | some i, some l => some (i :: l)
      | _, _ => none
  | st, store, Call.callocC n s :: cs =>
    match calloc env st store n s with
    | .crash => none
    | .ok p st1 sto1 =>
      match idAtPayload st1 p, returnedIds env st1 sto1 cs with
      | some i, some l => some (i :: l)
      | _, _ => none
  | st, store, Call.freeC p :: cs =>
    match free st p with
    | none => none
    | some st1 => returnedIds env st1 store cs
  | st, store, Call.reallocC p s :: cs =>
    match realloc_unsafe env st store p s with
    | .crash => none
    | .ok _ st1 sto1 => returnedIds env st1 sto1 cs

/-- An environment in which the OS refuses the mapping request. -/
def envNoMap : Env := { algo := none, scribble := none, mmapOk := false }

/-- The reachable state after the trace `[alloc 16, alloc 16]`: one 4096-byte
region at 4096 holding the split pair of 96-byte-usage blocks. -/
def twoBlockState : AllocState :=
  { blocks := [
      { addr := 4096, alloc_id := 0, name := "", size := 96, usage := 96,
        region_start := 4096, region_size := 4096 },
      { addr := 4192, alloc_id := 1, name := "", size := 4000, usage := 96,
        region_start := 4096, region_size := 4096 }],
    g_allocations := 2, nextMap := 8192 }

/-- A 40-character name, longer than the header's 32-byte name field. -/
def longName : String := "0123456789012345678901234567890123456789"

/-- The reachable state after `[alloc 16, alloc 16, alloc 16, free 4176,
free 4272]`: one region with two free headers followed by a live one. -/
def twoFreeState : AllocState :=
  { blocks := [
      { addr := 4096, alloc_id := 0, name := "", size := 96, usage := 0,
        region_start := 4096, region_size := 4096 },
      { addr := 4192, alloc_id := 1, name := "", size := 96, usage := 0,
        region_start := 4096, region_size := 4096 },
      { addr := 4288, alloc_id := 2, name := "", size := 3904, usage := 96,
        region_start := 4096, region_size := 4096 }],
    g_allocations := 3, nextMap := 8192 }

/-! ### Theorems -/

/-- **C5** (code-bug evidence).  On the first allocation with the OS refusing
the mapping: the placement search fails, `expand_heap` returns null with the OS
error logged, and the public allocation entry does *not* return null to the
caller — `malloc_unsafe` goes on to read `allocated->size` (allocator.c:350)
and `allocated->usage` (line 355) through the null pointer, a crash. -/
theorem claim_C5 :
    reuse envNoMap 96 initState.blocks = none ∧
    expand_heap envNoMap initState 96 = none ∧
    malloc envNoMap initState store0 16 = MallocResult.crash :=
  ⟨rfl, rfl, rfl⟩

/-- **C9** (code-bug evidence).  In the reachable two-block state after two
16-byte allocations, the dump's `[BLOCK]` lines carry end bounds
`start + region_size` (8192 and 8288), not `start + size` (4192 and 8192):
allocator.c:108-109 adds `current_block->region_size` where the block's own
`size` field was intended.  Alloc id, name, size, usage, the user-visible size
`usage - sizeof(header)`, and the `[REGION]` line placement all match the
claim. -/
theorem claim_C9 :
    runS env0 [Call.alloc 16, Call.alloc 16] = some twoBlockState ∧
    write_memory twoBlockState.blocks =
      [DumpLine.region 4096 8192 4096,
       DumpLine.block 4096 8192 0 "" 96 96 16,
       DumpLine.block 4192 8288 1 "" 4000 96 16] ∧
    (8192 : Nat) ≠ 4096 + 96 ∧ (8288 : Nat) ≠ 4192 + 4000 :=
  ⟨rfl, rfl, by decide, by decide⟩

/-- **C1** (counterexample).  At the request `s = 2^64 - 1` the 8-byte rounding
of `malloc_unsafe` wraps in `size_t`: the engine's rounded size is `0`, which
is not an upward rounding of `s` (the spec's round-up is `2^64`), and the block
it allocates has `usage = sizeof(header)`, not `align8(s) + sizeof(header)`. -/
theorem claim_C1_counterexample :
    align8 (UINT64 - 1) = 0 ∧
    align8_spec (UINT64 - 1) = UINT64 ∧
    ¬ (UINT64 - 1 ≤ align8 (UINT64 - 1)) ∧
    ( malloc_unsafe env0 initState store0 (UINT64 - 1)).stateOf =
      some { blocks := [{ addr := 4096, alloc_id := 0, name := "", size := 4096,
                          usage := HDR_SIZE, region_start := 4096, region_size := 4096 }],
             g_allocations := 1, nextMap := 8192 } :=
  ⟨rfl, by decide, by decide, rfl⟩

/-- **C3** (counterexample).  Reallocating the first block of the reachable
two-block state to `s = 2^64 - 1`: the header's `size` (96) is far below the
claim's `need = align8(s) + sizeof(header)`, so the claim mandates the
allocate-copy-free path — but the wrapped `size_t` computation makes
`actual_size = 80 ≤ 96` and the code resizes in place, returning `p` itself
with `usage = 80`. -/
theorem claim_C3_counterexample :
    ( realloc_unsafe env0 twoBlockState store0 4176 (UINT64 - 1)).payloadOf = some 4176 ∧
    ( realloc_unsafe env0 twoBlockState store0 4176 (UINT64 - 1)).stateOf =
      some { twoBlockState with blocks := [
        { addr := 4096, alloc_id := 0, name := "", size := 96, usage := 80,
          region_start := 4096, region_size := 4096 },
        { addr := 4192, alloc_id := 1, name := "", size := 4000, usage := 96,
          region_start := 4096, region_size := 4096 }] } ∧
    ¬ (align8_spec (UINT64 - 1) + HDR_SIZE ≤ 96) ∧
    (80 : Nat) ≠ align8_spec (UINT64 - 1) + HDR_SIZE :=
  ⟨rfl, rfl, by decide, by decide⟩

/-- **C6** (counterexample).  The legal trace
`alloc 16; alloc 16; alloc 16; free p1; free p2` reaches a state whose single
region holds *two* free headers, and neither of them is the region's last
header: releasing non-final blocks of a still-live region violates the claimed
invariant. -/
theorem claim_C6_counterexample :
    runS env0 [Call.alloc 16, Call.alloc 16, Call.alloc 16,
               Call.freeC 4176, Call.freeC 4272] = some twoFreeState ∧
    ¬ freeLastInv twoFreeState :=
  ⟨rfl, by decide⟩

/-- **C7** (counterexample).  In the legal trace
`alloc 16; alloc 16; free p1; alloc 16` the third successful allocation reuses
the freed first header without assigning a fresh id, so the returned blocks
carry alloc_ids `0, 1, 0` — not strictly increasing in program order. -/
theorem claim_C7_counterexample :
    returnedIds env0 initState store0
      [Call.alloc 16, Call.alloc 16, Call.freeC 4176, Call.alloc 16] = some [0, 1, 0] ∧
    ¬ List.Pairwise (fun a b => a < b) [0, 1, 0] :=
  ⟨rfl, by decide⟩

/-- **C8** (counterexample).  A named allocation with a 40-character name
stores the name in full: `strcpy` writes all 41 bytes (40 characters plus the
terminator), more than the 32-byte name field holds — nothing is truncated to
the field's capacity. -/
theorem claim_C8_counterexample :
    ( malloc_name_unsafe env0 initState store0 16 longName).stateOf =
      some { blocks := [{ addr := 4096, alloc_id := 0, name := longName, size := 4096,
                          usage := 96, region_start := 4096, region_size := 4096 }],
             g_allocations := 1, nextMap := 8192 } ∧
    (strcpyImage longName).length = 41 ∧
    ¬ ((strcpyImage longName).length ≤ NAME_CAP) :=
  ⟨rfl, rfl, by decide⟩

/-- **C10** (confirmed).  `calloc` computes its payload length as
`nmemb * size` reduced modulo `2^64` with no overflow check: whenever the
mathematical product is at least `2^64`, the length requested of the allocator
and zero-filled in the returned payload is strictly smaller than
`nmemb * size`, and the bytes of that (wrapped) range are zero. -/
theorem claim_C10 (env : Env) (st : AllocState) (store : Nat → Nat)
    (nmemb size p : Nat)
    (hbig : UINT64 ≤ nmemb * size)
    (hok : (calloc env st store nmemb size).payloadOf = some p) :
    (nmemb * size) % UINT64 < nmemb * size ∧
    ∀ a, p ≤ a → a < p + (nmemb * size) % UINT64 →
      (calloc env st store nmemb size).byteAt a = some 0 := by
  constructor
  · exact lt_of_lt_of_le (Nat.mod_lt _ (by unfold UINT64; positivity)) hbig
  · intro a ha1 ha2
    unfold calloc at hok ⊢
    cases hmal : malloc_unsafe env st store ((nmemb * size) % UINT64) with
    | crash =>
      simp only [hmal, MallocResult.payloadOf] at hok
      exact absurd hok (by simp)
    | ok q st1 sto1 =>
      simp only [hmal, MallocResult.payloadOf, Option.some.injEq] at hok
      subst hok
      simp only [hmal, MallocResult.byteAt, memset, Option.some.injEq]
      rw [if_pos ⟨ha1, ha2⟩]

/-- Witness for C10: `nmemb = 2^32`, `size = 2^32 + 8` overflow `size_t`; the
call succeeds with the wrapped length and zeroed payload bytes. -/
theorem claim_C10_witness :
    UINT64 ≤ 2 ^ 32 * (2 ^ 32 + 8) ∧
    (calloc env0 initState store0 (2 ^ 32) (2 ^ 32 + 8)).payloadOf = some 4176 ∧
    (2 ^ 32 * (2 ^ 32 + 8)) % UINT64 < 2 ^ 32 * (2 ^ 32 + 8) ∧
    (calloc env0 initState store0 (2 ^ 32) (2 ^ 32 + 8)).byteAt 5000 = some 0 := by
  have h1 : UINT64 ≤ 2 ^ 32 * (2 ^ 32 + 8) := by decide
  have h2 : (calloc env0 initState store0 (2 ^ 32) (2 ^ 32 + 8)).payloadOf = some 4176 := rfl
  have h := claim_C10 env0 initState store0 (2 ^ 32) (2 ^ 32 + 8) 4176 h1 h2
  exact ⟨h1, h2, h.1, h.2 5000 (by decide) (by decide)⟩

theorem sub64_eq_sub (a b : Nat) (hba : b ≤ a) (ha : a < UINT64) :
    sub64 a b = a - b := by
  unfold sub64
  rw [Nat.mod_eq_of_lt ha, Nat.mod_eq_of_lt (lt_of_le_of_lt hba ha)]
  have h1 : a + (UINT64 - b) = UINT64 + (a - b) := by omega
  rw [h1, Nat.add_mod_left, Nat.mod_eq_of_lt (by omega)]

theorem fit_cond_iff (need : Nat) (b : MemBlock) (h1 : b.usage ≤ b.size)
    (h2 : need + b.usage < UINT64) :
    ((need + b.usage) % UINT64 ≤ b.size) ↔ IsCand need b := by
  rw [Nat.mod_eq_of_lt h2]
  unfold IsCand
  omega

theorem first_fit_none_iff (need : Nat) (bs : List MemBlock)
    (hwf : ∀ b ∈ bs, b.usage ≤ b.size ∧ b.size < UINT64 ∧ need + b.usage < UINT64) :
    first_fit need bs = none ↔ ∀ b ∈ bs, ¬ IsCand need b := by
  induction bs with
  | nil => simp [first_fit]
  | cons b rest ih =>
    have hb := hwf b (List.mem_cons_self b rest)
    have hrest := fun c hc => hwf c (List.mem_cons_of_mem b hc)
    unfold first_fit
    by_cases hc : (need + b.usage) % UINT64 ≤ b.size
    · rw [if_pos hc]
      simp only [List.mem_cons]
      constructor
      · intro h; exact absurd h (by simp)
      · intro h
        exact absurd ((fit_cond_iff need b hb.1 hb.2.2).mp hc) (h b (Or.inl rfl))
    · rw [if_neg hc]
      rw [ih hrest]
      have hnc : ¬ IsCand need b := fun hh =>
        hc ((fit_cond_iff need b hb.1 hb.2.2).mpr hh)
      constructor
      · intro h c hcmem
        rcases List.mem_cons.mp hcmem with h1 | h1
        · exact h1 ▸ hnc
        · exact h c h1
      · intro h c hcmem
        exact h c (List.mem_cons_of_mem b hcmem)

theorem first_fit_some_spec (need : Nat) (bs : List MemBlock)
    (hwf : ∀ b ∈ bs, b.usage ≤ b.size ∧ b.size < UINT64 ∧ need + b.usage < UINT64)
    (r : MemBlock) (h : first_fit need bs = some r) :
    IsCand need r ∧ ∃ P S, bs = P ++ r :: S ∧ ∀ c ∈ P, ¬ IsCand need c := by
  induction bs with
  | nil => exact absurd h (by simp [first_fit])
  | cons b rest ih =>
    have hb := hwf b (List.mem_cons_self b rest)
    have hrest := fun c hc => hwf c (List.mem_cons_of_mem b hc)
    unfold first_fit at h
    by_cases hc : (need + b.usage) % UINT64 ≤ b.size
    · rw [if_pos hc] at h
      have hbr : b = r := by injection h
      subst hbr
      exact ⟨(fit_cond_iff need b hb.1 hb.2.2).mp hc, [], rest, rfl, by simp⟩
    · rw [if_neg hc] at h
      obtain ⟨hcand, P, S, hps, hP⟩ := ih hrest h
      refine ⟨hcand, b :: P, S, by rw [hps]; rfl, ?_⟩
      intro c hcmem
      rcases List.mem_cons.mp hcmem with h1 | h1
      · exact h1 ▸ fun hh => hc ((fit_cond_iff need b hb.1 hb.2.2).mpr hh)
      · exact hP c h1

theorem best_fit_go_exists (need : Nat) (bs : List MemBlock) :
    ∀ a, ∃ r, best_fit_go need bs (some a) = some r := by
  induction bs with
  | nil => intro a; exact ⟨a, rfl⟩
  | cons b rest ih =>
    intro a
    unfold best_fit_go
    by_cases hcb : (need + b.usage) % UINT64 ≤ b.size
    · rw [if_pos hcb]
      by_cases hlt : sub64 b.size b.usage < sub64 a.size a.usage
      · simp only [if_pos hlt]; exact ih b
      · simp only [if_neg hlt]; exact ih a
    · rw [if_neg hcb]; exact ih a

theorem best_fit_go_acc (need : Nat) (bs : List MemBlock) :
    (∀ b ∈ bs, b.usage ≤ b.size ∧ b.size < UINT64 ∧ need + b.usage < UINT64) →
    ∀ a r, a.usage ≤ a.size → a.size < UINT64 →
    best_fit_go need bs (some a) = some r →
    (r = a ∧ ∀ c ∈ bs, IsCand need c → slackOf a ≤ slackOf c) ∨
    (IsCand need r ∧ slackOf r < slackOf a ∧
      ∃ P S, bs = P ++ r :: S ∧ (∀ c ∈ P, IsCand need c → slackOf r < slackOf c) ∧
        ∀ c ∈ S, IsCand need c → slackOf r ≤ slackOf c) := by
  induction bs with
  | nil =>
    intro _ a r _ _ h
    left
    constructor
    · have : some a = some r := by simpa [best_fit_go] using h
      injection this
      aesop
    · simp
  | cons b rest ih =>
    intro hwf a r ha1 ha2 h
    have hb := hwf b (List.mem_cons_self b rest)
    have hrest := fun c hc => hwf c (List.mem_cons_of_mem b hc)
    have hs64b : sub64 b.size b.usage = slackOf b := sub64_eq_sub _ _ hb.1 hb.2.1
    have hs64a : sub64 a.size a.usage = slackOf a := sub64_eq_sub _ _ ha1 ha2
    unfold best_fit_go at h
    by_cases hcb : (need + b.usage) % UINT64 ≤ b.size
    · rw [if_pos hcb] at h
      have hcand_b : IsCand need b := (fit_cond_iff need b hb.1 hb.2.2).mp hcb
      by_cases hlt : sub64 b.size b.usage < sub64 a.size a.usage
      · simp only [if_pos hlt] at h
        rw [hs64b, hs64a] at hlt
        rcases ih hrest b r hb.1 hb.2.1 h with ⟨hrb, hall⟩ | ⟨hc, hsl, P, S, hps, hP, hS⟩
        · subst hrb
          right
          exact ⟨hcand_b, hlt, [], rest, rfl, by simp, hall⟩
        · right
          refine ⟨hc, lt_trans hsl hlt, b :: P, S, by rw [hps]; rfl, ?_, hS⟩
          intro c hcmem
          rcases List.mem_cons.mp hcmem with h1 | h1
          · exact fun _ => h1 ▸ hsl
          · exact hP c h1
      · simp only [if_neg hlt] at h
        rw [hs64b, hs64a] at hlt
        push_neg at hlt
        rcases ih hrest a r ha1 ha2 h with ⟨hra, hall⟩ | ⟨hc, hsl, P, S, hps, hP, hS⟩
        · left
          refine ⟨hra, ?_⟩
          intro c hcmem
          rcases List.mem_cons.mp hcmem with h1 | h1
          · exact fun _ => h1 ▸ hlt
          · exact hall c h1
        · right
          refine ⟨hc, hsl, b :: P, S, by rw [hps]; rfl, ?_, hS⟩
          intro c hcmem
          rcases List.mem_cons.mp hcmem with h1 | h1
          · exact fun _ => h1 ▸ lt_of_lt_of_le hsl hlt
          · exact hP c h1
    · rw [if_neg hcb] at h
      have hnc : ¬ IsCand need b := fun hh => hcb ((fit_cond_iff need b hb.1 hb.2.2).mpr hh)
      rcases ih hrest a r ha1 ha2 h with ⟨hra, hall⟩ | ⟨hc, hsl, P, S, hps, hP, hS⟩
      · left
        refine ⟨hra, ?_⟩
        intro c hcmem
        rcases List.mem_cons.mp hcmem with h1 | h1
        · exact fun hh => absurd (h1 ▸ hh) hnc
        · exact hall c h1
      · right
        refine ⟨hc, hsl, b :: P, S, by rw [hps]; rfl, ?_, hS⟩
        intro c hcmem
        rcases List.mem_cons.mp hcmem with h1 | h1
        · exact fun hh => absurd (h1 ▸ hh) hnc
        · exact hP c h1



theorem best_fit_go_cons (need : Nat) (b : MemBlock) (rest : List MemBlock)
    (acc : Option MemBlock) :
    best_fit_go need (b :: rest) acc =
      if (need + b.usage) % UINT64 ≤ b.size then
        match acc with
        | none => best_fit_go need rest (some b)
        | some a => if sub64 b.size b.usage < sub64 a.size a.usage
                    then best_fit_go need rest (some b) else best_fit_go need rest (some a)
      else best_fit_go need rest acc := rfl

theorem best_fit_spec (need : Nat) (bs : List MemBlock)
    (hwf : ∀ b ∈ bs, b.usage ≤ b.size ∧ b.size < UINT64 ∧ need + b.usage < UINT64) :
    (best_fit need bs = none ↔ ∀ b ∈ bs, ¬ IsCand need b) ∧
    (∀ r, best_fit need bs = some r →
      IsCand need r ∧ (∀ c ∈ bs, IsCand need c → slackOf r ≤ slackOf c) ∧
      ∃ P S, bs = P ++ r :: S ∧ ∀ c ∈ P, IsCand need c → slackOf r < slackOf c) := by
  induction bs with
  | nil => exact ⟨by simp [best_fit, best_fit_go], fun r h => absurd h (by simp [best_fit, best_fit_go])⟩
  | cons b rest ih =>
    have hb := hwf b (List.mem_cons_self b rest)
    have hrest := fun c hc => hwf c (List.mem_cons_of_mem b hc)
    by_cases hcb : (need + b.usage) % UINT64 ≤ b.size
    · have hcand_b : IsCand need b := (fit_cond_iff need b hb.1 hb.2.2).mp hcb
      have hred : best_fit need (b :: rest) = best_fit_go need rest (some b) := by
        unfold best_fit
        rw [best_fit_go_cons, if_pos hcb]
      constructor
      · rw [hred]
        obtain ⟨r, hr⟩ := best_fit_go_exists need rest b
        rw [hr]
        constructor
        · intro h; exact absurd h (by simp)
        · intro h; exact absurd hcand_b (h b (List.mem_cons_self b rest))
      · intro r h
        rw [hred] at h
        rcases best_fit_go_acc need rest hrest b r hb.1 hb.2.1 h with
          ⟨hrb, hall⟩ | ⟨hc, hsl, P, S, hps, hP, hS⟩
        · subst hrb
          refine ⟨hcand_b, ?_, [], rest, rfl, by simp⟩
          intro c hcmem
          rcases List.mem_cons.mp hcmem with h1 | h1
          · exact fun _ => h1 ▸ le_refl _
          · exact hall c h1
        · refine ⟨hc, ?_, b :: P, S, by rw [hps]; rfl, ?_⟩
          · intro c hcmem
            rcases List.mem_cons.mp hcmem with h1 | h1
            · exact fun _ => h1 ▸ le_of_lt hsl
            · rw [hps] at h1
              rcases List.mem_append.mp h1 with h2 | h2
              · exact fun hh => le_of_lt (hP c h2 hh)
              · rcases List.mem_cons.mp h2 with h3 | h3
                · exact fun _ => h3 ▸ le_refl _
                · exact hS c h3
          · intro c hcmem
            rcases List.mem_cons.mp hcmem with h1 | h1
            · exact fun _ => h1 ▸ hsl
            · exact hP c h1
    · have hnc : ¬ IsCand need b := fun hh => hcb ((fit_cond_iff need b hb.1 hb.2.2).mpr hh)
      have hred : best_fit need (b :: rest) = best_fit need rest := by
        unfold best_fit
        rw [best_fit_go_cons, if_neg hcb]
      obtain ⟨ih1, ih2⟩ := ih hrest
      constructor
      · rw [hred, ih1]
        constructor
        · intro h c hcmem
          rcases List.mem_cons.mp hcmem with h1 | h1
          · exact h1 ▸ hnc
          · exact h c h1
        · intro h c hcmem; exact h c (List.mem_cons_of_mem b hcmem)
      · intro r h
        rw [hred] at h
        obtain ⟨hc, hmin, P, S, hps, hP⟩ := ih2 r h
        refine ⟨hc, ?_, b :: P, S, by rw [hps]; rfl, ?_⟩
        · intro c hcmem
          rcases List.mem_cons.mp hcmem with h1 | h1
          · exact fun hh => absurd (h1 ▸ hh) hnc
          · exact hmin c h1
        · intro c hcmem
          rcases List.mem_cons.mp hcmem with h1 | h1
          · exact fun hh => absurd (h1 ▸ hh) hnc
          · exact hP c h1



theorem worst_fit_go_cons (need : Nat) (b : MemBlock) (rest : List MemBlock)
    (acc : Option MemBlock) :
    worst_fit_go need (b :: rest) acc =
      if (need + b.usage) % UINT64 ≤ b.size then
        match acc with
        | none => worst_fit_go need rest (some b)
        | some a => if sub64 a.size a.usage < sub64 b.size b.usage
                    then worst_fit_go need rest (some b) else worst_fit_go need rest (some a)
      else worst_fit_go need rest acc := rfl

theorem worst_fit_go_exists (need : Nat) (bs : List MemBlock) :
    ∀ a, ∃ r, worst_fit_go need bs (some a) = some r := by
  induction bs with
  | nil => intro a; exact ⟨a, rfl⟩
  | cons b rest ih =>
    intro a
    rw [worst_fit_go_cons]
    by_cases hcb : (need + b.usage) % UINT64 ≤ b.size
    · rw [if_pos hcb]
      by_cases hlt : sub64 a.size a.usage < sub64 b.size b.usage
      · simp only [if_pos hlt]; exact ih b
      · simp only [if_neg hlt]; exact ih a
    · rw [if_neg hcb]; exact ih a

theorem worst_fit_go_acc (need : Nat) (bs : List MemBlock) :
    (∀ b ∈ bs, b.usage ≤ b.size ∧ b.size < UINT64 ∧ need + b.usage < UINT64) →
    ∀ a r, a.usage ≤ a.size → a.size < UINT64 →
    worst_fit_go need bs (some a) = some r →
    (r = a ∧ ∀ c ∈ bs, IsCand need c → slackOf c ≤ slackOf a) ∨
    (IsCand need r ∧ slackOf a < slackOf r ∧
      ∃ P S, bs = P ++ r :: S ∧ (∀ c ∈ P, IsCand need c → slackOf c < slackOf r) ∧
        ∀ c ∈ S, IsCand need c → slackOf c ≤ slackOf r) := by
  induction bs with
  | nil =>
    intro _ a r _ _ h
    left
    constructor
    · have h2 : some a = some r := by simpa [worst_fit_go] using h
      injection h2
      aesop
    · simp
  | cons b rest ih =>
    intro hwf a r ha1 ha2 h
    have hb := hwf b (List.mem_cons_self b rest)
    have hrest := fun c hc => hwf c (List.mem_cons_of_mem b hc)
    have hs64b : sub64 b.size b.usage = slackOf b := sub64_eq_sub _ _ hb.1 hb.2.1
    have hs64a : sub64 a.size a.usage = slackOf a := sub64_eq_sub _ _ ha1 ha2
    rw [worst_fit_go_cons] at h
    by_cases hcb : (need + b.usage) % UINT64 ≤ b.size
    · rw [if_pos hcb] at h
      have hcand_b : IsCand need b := (fit_cond_iff need b hb.1 hb.2.2).mp hcb
      by_cases hlt : sub64 a.size a.usage < sub64 b.size b.usage
      · simp only [if_pos hlt] at h
        rw [hs64b, hs64a] at hlt
        rcases ih hrest b r hb.1 hb.2.1 h with ⟨hrb, hall⟩ | ⟨hc, hsl, P, S, hps, hP, hS⟩
        · subst hrb
          right
          exact ⟨hcand_b, hlt, [], rest, rfl, by simp, hall⟩
        · right
          refine ⟨hc, lt_trans hlt hsl, b :: P, S, by rw [hps]; rfl, ?_, hS⟩
          intro c hcmem
          rcases List.mem_cons.mp hcmem with h1 | h1
          · exact fun _ => h1 ▸ hsl
          · exact hP c h1
      · simp only [if_neg hlt] at h
        rw [hs64b, hs64a] at hlt
        push_neg at hlt
        rcases ih hrest a r ha1 ha2 h with ⟨hra, hall⟩ | ⟨hc, hsl, P, S, hps, hP, hS⟩
        · left
          refine ⟨hra, ?_⟩
          intro c hcmem
          rcases List.mem_cons.mp hcmem with h1 | h1
          · exact fun _ => h1 ▸ hlt
          · exact hall c h1
        · right
          refine ⟨hc, hsl, b :: P, S, by rw [hps]; rfl, ?_, hS⟩
          intro c hcmem
          rcases List.mem_cons.mp hcmem with h1 | h1
          · exact fun _ => h1 ▸ lt_of_le_of_lt hlt hsl
          · exact hP c h1
    · rw [if_neg hcb] at h
      have hnc : ¬ IsCand need b := fun hh => hcb ((fit_cond_iff need b hb.1 hb.2.2).mpr hh)
      rcases ih hrest a r ha1 ha2 h with ⟨hra, hall⟩ | ⟨hc, hsl, P, S, hps, hP, hS⟩
      · left
        refine ⟨hra, ?_⟩
        intro c hcmem
        rcases List.mem_cons.mp hcmem with h1 | h1
        · exact fun hh => absurd (h1 ▸ hh) hnc
        · exact hall c h1
      · right
        refine ⟨hc, hsl, b :: P, S, by rw [hps]; rfl, ?_, hS⟩
        intro c hcmem
        rcases List.mem_cons.mp hcmem with h1 | h1
        · exact fun hh => absurd (h1 ▸ hh) hnc
        · exact hP c h1

theorem worst_fit_spec (need : Nat) (bs : List MemBlock)
    (hwf : ∀ b ∈ bs, b.usage ≤ b.size ∧ b.size < UINT64 ∧ need + b.usage < UINT64) :
    (worst_fit need bs = none ↔ ∀ b ∈ bs, ¬ IsCand need b) ∧
    (∀ r, worst_fit need bs = some r →
      IsCand need r ∧ (∀ c ∈ bs, IsCand need c → slackOf c ≤ slackOf r) ∧
      ∃ P S, bs = P ++ r :: S ∧ ∀ c ∈ P, IsCand need c → slackOf c < slackOf r) := by
  induction bs with
  | nil =>
    exact ⟨by simp [worst_fit, worst_fit_go],
           fun r h => absurd h (by simp [worst_fit, worst_fit_go])⟩
  | cons b rest ih =>
    have hb := hwf b (List.mem_cons_self b rest)
    have hrest := fun c hc => hwf c (List.mem_cons_of_mem b hc)
    by_cases hcb : (need + b.usage) % UINT64 ≤ b.size
    · have hcand_b : IsCand need b := (fit_cond_iff need b hb.1 hb.2.2).mp hcb
      have hred : worst_fit need (b :: rest) = worst_fit_go need rest (some b) := by
        unfold worst_fit
        rw [worst_fit_go_cons, if_pos hcb]
      constructor
      · rw [hred]
        obtain ⟨r, hr⟩ := worst_fit_go_exists need rest b
        rw [hr]
        constructor
        · intro h; exact absurd h (by simp)
        · intro h; exact absurd hcand_b (h b (List.mem_cons_self b rest))
      · intro r h
        rw [hred] at h
        rcases worst_fit_go_acc need rest hrest b r hb.1 hb.2.1 h with
          ⟨hrb, hall⟩ | ⟨hc, hsl, P, S, hps, hP, hS⟩
        · subst hrb
          refine ⟨hcand_b, ?_, [], rest, rfl, by simp⟩
          intro c hcmem
          rcases List.mem_cons.mp hcmem with h1 | h1
          · exact fun _ => h1 ▸ le_refl _
          · exact hall c h1
        · refine ⟨hc, ?_, b :: P, S, by rw [hps]; rfl, ?_⟩
          · intro c hcmem
            rcases List.mem_cons.mp hcmem with h1 | h1
            · exact fun _ => h1 ▸ le_of_lt hsl
            · rw [hps] at h1
              rcases List.mem_append.mp h1 with h2 | h2
              · exact fun hh => le_of_lt (hP c h2 hh)
              · rcases List.mem_cons.mp h2 with h3 | h3
                · exact fun _ => h3 ▸ le_refl _
                · exact hS c h3
          · intro c hcmem
            rcases List.mem_cons.mp hcmem with h1 | h1
            · exact fun _ => h1 ▸ hsl
            · exact hP c h1
    · have hnc : ¬ IsCand need b := fun hh => hcb ((fit_cond_iff need b hb.1 hb.2.2).mpr hh)
      have hred : worst_fit need (b :: rest) = worst_fit need rest := by
        unfold worst_fit
        rw [worst_fit_go_cons, if_neg hcb]
      obtain ⟨ih1, ih2⟩ := ih hrest
      constructor
      · rw [hred, ih1]
        constructor
        · intro h c hcmem
          rcases List.mem_cons.mp hcmem with h1 | h1
          · exact h1 ▸ hnc
          · exact h c h1
        · intro h c hcmem; exact h c (List.mem_cons_of_mem b hcmem)
      · intro r h
        rw [hred] at h
        obtain ⟨hc, hmax, P, S, hps, hP⟩ := ih2 r h
        refine ⟨hc, ?_, b :: P, S, by rw [hps]; rfl, ?_⟩
        · intro c hcmem
          rcases List.mem_cons.mp hcmem with h1 | h1
          · exact fun hh => absurd (h1 ▸ hh) hnc
          · exact hmax c h1
        · intro c hcmem
          rcases List.mem_cons.mp hcmem with h1 | h1
          · exact fun hh => absurd (h1 ▸ hh) hnc
          · exact hP c h1



/-- **C4** (amended: lists obeying the data model — `usage ≤ size`, `size_t`
values in range — and needs for which the code's `size + current->usage` test
does not wrap, `need + H.usage < 2^64` for every header).  The placement
search scans the list front to back treating as candidate any header with
`H.size - H.usage ≥ need`; first-fit returns the first candidate, best-fit a
candidate of minimal slack (earliest in list order on ties), worst-fit one of
maximal slack (earliest on ties); with `ALLOCATOR_ALGORITHM` unset the default
is first-fit, and an unrecognized value makes the search return null.  At a
wrapping `need` the claim fails on the code (see the counterexample). -/
theorem claim_C4 (env : Env) (need : Nat) (bs : List MemBlock)
    (hwf : ∀ b ∈ bs, b.usage ≤ b.size ∧ b.size < UINT64 ∧ need + b.usage < UINT64) :
    ((first_fit need bs = none ↔ ∀ b ∈ bs, ¬ IsCand need b) ∧
     (∀ r, first_fit need bs = some r →
       IsCand need r ∧ ∃ P S, bs = P ++ r :: S ∧ ∀ c ∈ P, ¬ IsCand need c)) ∧
    ((best_fit need bs = none ↔ ∀ b ∈ bs, ¬ IsCand need b) ∧
     (∀ r, best_fit need bs = some r →
       IsCand need r ∧ (∀ c ∈ bs, IsCand need c → slackOf r ≤ slackOf c) ∧
       ∃ P S, bs = P ++ r :: S ∧ ∀ c ∈ P, IsCand need c → slackOf r < slackOf c)) ∧
    ((worst_fit need bs = none ↔ ∀ b ∈ bs, ¬ IsCand need b) ∧
     (∀ r, worst_fit need bs = some r →
       IsCand need r ∧ (∀ c ∈ bs, IsCand need c → slackOf c ≤ slackOf r) ∧
       ∃ P S, bs = P ++ r :: S ∧ ∀ c ∈ P, IsCand need c → slackOf c < slackOf r)) ∧
    (env.algo = none → reuse env need bs = first_fit need bs) ∧
    (reuse { env with algo := some "first_fit" } need bs = first_fit need bs) ∧
    (reuse { env with algo := some "best_fit" } need bs = best_fit need bs) ∧
    (reuse { env with algo := some "worst_fit" } need bs = worst_fit need bs) ∧
    (∀ s, s ≠ "first_fit" → s ≠ "best_fit" → s ≠ "worst_fit" →
      reuse { env with algo := some s } need bs = none) := by
  refine ⟨⟨first_fit_none_iff need bs hwf, fun r => first_fit_some_spec need bs hwf r⟩,
          best_fit_spec need bs hwf, worst_fit_spec need bs hwf, ?_, ?_, ?_, ?_, ?_⟩
  · intro h; simp [reuse, h]
  · rfl
  · rfl
  · rfl
  · intro s h1 h2 h3; simp [reuse, h1, h2, h3]

theorem claim_C4_witness :
    (∀ b ∈ twoFreeState.blocks,
      b.usage ≤ b.size ∧ b.size < UINT64 ∧ 96 + b.usage < UINT64) ∧
    (first_fit 96 twoFreeState.blocks = none ↔
      ∀ b ∈ twoFreeState.blocks, ¬ IsCand 96 b) := by
  have hwf : ∀ b ∈ twoFreeState.blocks,
      b.usage ≤ b.size ∧ b.size < UINT64 ∧ 96 + b.usage < UINT64 := by decide
  exact ⟨hwf, (claim_C4 env0 96 twoFreeState.blocks hwf).1.1⟩

/-- **C4** (counterexample).  At `need = 2^64 - 88` — the `actual_size` of the
wrap-free request `malloc(2^64 - 168)` — the code's suitability test
`current->size >= size + current->usage` wraps in `size_t`: against the
reachable two-block list it computes `(need + 96) % 2^64 = 8 ≤ 96`, so
`first_fit` (and `reuse` under the default policy) returns the first block,
whose tail slack is 0, although no header has `size - usage ≥ need` and the
claim demands that the search return null. -/
theorem claim_C4_counterexample :
    align8 (UINT64 - 168) + HDR_SIZE = UINT64 - 88 ∧
    (∀ b ∈ twoBlockState.blocks, ¬ IsCand (UINT64 - 88) b) ∧
    first_fit (UINT64 - 88) twoBlockState.blocks =
      some { addr := 4096, alloc_id := 0, name := "", size := 96, usage := 96,
             region_start := 4096, region_size := 4096 } ∧
    reuse env0 (UINT64 - 88) twoBlockState.blocks =
      some { addr := 4096, alloc_id := 0, name := "", size := 96, usage := 96,
             region_start := 4096, region_size := 4096 } :=
  ⟨by decide, by decide, by decide, by decide⟩

theorem align8_eq_spec (s : Nat) (h : align8_spec s < UINT64) :
    align8 s = align8_spec s := by
  unfold align8 align8_spec at *
  by_cases hr : s % 8 = 0
  · rw [if_pos hr]; omega
  · rw [if_neg hr]
    have he : s + (8 - s % 8) = 8 * ((s + 7) / 8) := by omega
    rw [he, Nat.mod_eq_of_lt h]

theorem addr_ne_of_nodup {P S : List MemBlock} {c : MemBlock}
    (h : ((P ++ c :: S).map MemBlock.addr).Nodup) :
    (∀ b ∈ P, b.addr ≠ c.addr) ∧ (∀ b ∈ S, b.addr ≠ c.addr) := by
  rw [List.map_append, List.nodup_append] at h
  obtain ⟨_, h2, h3⟩ := h
  constructor
  · intro b hb heq
    exact h3 (List.mem_map_of_mem MemBlock.addr hb) (heq ▸ List.mem_cons_self _ _)
  · intro b hb heq
    rw [List.map_cons, List.nodup_cons] at h2
    exact h2.1 (heq ▸ List.mem_map_of_mem MemBlock.addr hb)

theorem setUsage_decomp (P S : List MemBlock) (c : MemBlock) (n : Nat)
    (hP : ∀ b ∈ P, b.addr ≠ c.addr) (hS : ∀ b ∈ S, b.addr ≠ c.addr) :
    setUsage (P ++ c :: S) c.addr n = P ++ { c with usage := n } :: S := by
  unfold setUsage
  rw [List.map_append, List.map_cons, if_pos rfl]
  congr 1
  · exact (List.map_congr_left fun b hb => if_neg (hP b hb)).trans (List.map_id P)
  · congr 1
    exact (List.map_congr_left fun b hb => if_neg (hS b hb)).trans (List.map_id S)

theorem splitInsert_decomp (P S : List MemBlock) (c nb : MemBlock)
    (hP : ∀ b ∈ P, b.addr ≠ c.addr) :
    splitInsert c.addr nb (P ++ c :: S) =
      P ++ { c with size := c.usage } :: nb :: S := by
  induction P with
  | nil => simp [splitInsert]
  | cons p rest ih =>
    have hp := hP p (List.mem_cons_self p rest)
    have hrest := fun b hb => hP b (List.mem_cons_of_mem p hb)
    rw [List.cons_append]
    show splitInsert c.addr nb (p :: (rest ++ c :: S)) = _
    unfold splitInsert
    rw [if_neg hp, ih hrest]
    rfl

/-- **C1** (amended: requests whose 8-byte round-up plus header size does not
exceed `size_t`).  The engine rounds `s` up to a multiple of 8 and computes
`need = align8 s + sizeof(header)`; the chosen block (placement result, or the
fresh region's lone header) is handled per the claim: `usage == 0` takes the
block whole with `usage := need` and no new header; otherwise the tail is
split, creating the new header at `chosen + chosen.usage` with the claimed
fields, `next = chosen.next` (it is inserted right after `chosen`), a fresh
`alloc_id` (the incremented global counter), after which `chosen.size` shrinks
to `chosen.usage`; the returned payload is the address right after the
returned header. -/
theorem claim_C1 (env : Env) (st : AllocState) (store : Nat → Nat) (s : Nat)
    (chosen : MemBlock) (st1 : AllocState)
    (hs : align8_spec s + HDR_SIZE < UINT64)
    (hch : choose_block env st (align8 s + HDR_SIZE) = some (chosen, st1))
    (hmem : chosen ∈ st1.blocks)
    (hwf : BlocksWF st1.blocks) :
    align8 s = align8_spec s ∧ s ≤ align8 s ∧ align8 s % 8 = 0 ∧
    ∃ P S, st1.blocks = P ++ chosen :: S ∧
      (chosen.usage = 0 →
        ( malloc_unsafe env st store s).payloadOf = some (chosen.addr + HDR_SIZE) ∧
        ( malloc_unsafe env st store s).stateOf = some { st1 with
          blocks := P ++ { chosen with usage := align8 s + HDR_SIZE } :: S }) ∧
      (chosen.usage ≠ 0 →
        ( malloc_unsafe env st store s).payloadOf =
          some (chosen.addr + chosen.usage + HDR_SIZE) ∧
        ( malloc_unsafe env st store s).stateOf = some { st1 with
          blocks := P ++ { chosen with size := chosen.usage } ::
            { addr := chosen.addr + chosen.usage
              alloc_id := st1.g_allocations
              name := ""
              size := chosen.size - chosen.usage
              usage := align8 s + HDR_SIZE
              region_start := chosen.region_start
              region_size := chosen.region_size } :: S
          g_allocations := st1.g_allocations + 1 }) := by
  have hspec := align8_eq_spec s (by omega)
  have haspec : align8 s % 8 = 0 := by
    rw [hspec]; unfold align8_spec; omega
  have hle : s ≤ align8 s := by
    rw [hspec]; unfold align8_spec; omega
  refine ⟨hspec, hle, haspec, ?_⟩
  obtain ⟨P, S, hPS⟩ := List.append_of_mem hmem
  have hwfc := hwf.2 chosen hmem
  have hnodup := hwf.1
  rw [hPS] at hnodup
  obtain ⟨hPne, hSne⟩ := addr_ne_of_nodup hnodup
  have hmod : (align8 s + HDR_SIZE) % UINT64 = align8 s + HDR_SIZE :=
    Nat.mod_eq_of_lt (by rw [hspec]; exact hs)
  refine ⟨P, S, hPS, ?_, ?_⟩
  · intro hz
    have : malloc_unsafe env st store s =
        MallocResult.ok ((chosen.addr + HDR_SIZE) % UINT64)
          { st1 with blocks := setUsage st1.blocks chosen.addr (align8 s + HDR_SIZE) }
          (if env.scribble = some "1"
            then memset store ((chosen.addr + HDR_SIZE) % UINT64) 0xaa (align8 s)
            else store) := by
      unfold malloc_unsafe
      simp only [hmod, hch, if_pos hz]
    rw [this]
    have haddr : (chosen.addr + HDR_SIZE) % UINT64 =
        chosen.addr + HDR_SIZE := Nat.mod_eq_of_lt (by omega)
    rw [hPS]
    rw [setUsage_decomp P S chosen _ hPne hSne]
    exact ⟨by rw [MallocResult.payloadOf, haddr], rfl⟩
  · intro hz
    have haddr2 : (chosen.addr + chosen.usage) % UINT64 =
        chosen.addr + chosen.usage := Nat.mod_eq_of_lt (by omega)
    have hsub : sub64 chosen.size chosen.usage = chosen.size - chosen.usage :=
      sub64_eq_sub _ _ hwfc.1 (by omega)
    have : malloc_unsafe env st store s =
        MallocResult.ok (((chosen.addr + chosen.usage) % UINT64 + HDR_SIZE) % UINT64)
          { st1 with
            blocks := splitInsert chosen.addr
              { addr := (chosen.addr + chosen.usage) % UINT64
                alloc_id := st1.g_allocations
                name := ""
                size := sub64 chosen.size chosen.usage
                usage := align8 s + HDR_SIZE
                region_start := chosen.region_start
                region_size := chosen.region_size } st1.blocks
            g_allocations := st1.g_allocations + 1 }
          (if env.scribble = some "1"
            then memset store (((chosen.addr + chosen.usage) % UINT64 + HDR_SIZE) % UINT64)
              0xaa (align8 s)
            else store) := by
      unfold malloc_unsafe
      simp only [hmod, hch, if_neg hz]
    rw [this]
    have haddr3 : ((chosen.addr + chosen.usage) % UINT64 + HDR_SIZE) % UINT64 =
        chosen.addr + chosen.usage + HDR_SIZE := by
      rw [haddr2]; exact Nat.mod_eq_of_lt (by omega)
    rw [hPS, haddr2, hsub]
    rw [splitInsert_decomp P _ chosen _ hPne]
    exact ⟨by rw [MallocResult.payloadOf, Nat.mod_eq_of_lt (by omega)], rfl⟩



theorem claim_C1_witness :
    (align8_spec 16 + HDR_SIZE < UINT64) ∧
    (choose_block env0 initState (align8 16 + HDR_SIZE) =
      some ({ addr := 4096, alloc_id := 0, name := "", size := 4096, usage := 0,
              region_start := 4096, region_size := 4096 },
            { blocks := [{ addr := 4096, alloc_id := 0, name := "", size := 4096,
                           usage := 0, region_start := 4096, region_size := 4096 }],
              g_allocations := 1, nextMap := 8192 })) ∧
    (align8 16 = align8_spec 16 ∧ 16 ≤ align8 16 ∧ align8 16 % 8 = 0 ∧
      ∃ P S,
        [({ addr := 4096, alloc_id := 0, name := "", size := 4096, usage := 0,
            region_start := 4096, region_size := 4096 } : MemBlock)] =
          P ++ ({ addr := 4096, alloc_id := 0, name := "", size := 4096, usage := 0,
                  region_start := 4096, region_size := 4096 } : MemBlock) :: S ∧
        ((0 : Nat) = 0 →
          ( malloc_unsafe env0 initState store0 16).payloadOf = some 4176 ∧
          ( malloc_unsafe env0 initState store0 16).stateOf =
            some { blocks := P ++ ({ addr := 4096, alloc_id := 0, name := "", size := 4096,
                                     usage := 96, region_start := 4096,
                                     region_size := 4096 } : MemBlock) :: S,
                   g_allocations := 1, nextMap := 8192 }) ∧
        ((0 : Nat) ≠ 0 →
          ( malloc_unsafe env0 initState store0 16).payloadOf = some (4096 + 0 + HDR_SIZE) ∧
          ( malloc_unsafe env0 initState store0 16).stateOf =
            some { blocks := P ++ ({ addr := 4096, alloc_id := 0, name := "", size := 0,
                                     usage := 0, region_start := 4096,
                                     region_size := 4096 } : MemBlock) ::
                     ({ addr := 4096, alloc_id := 1, name := "", size := 4096, usage := 96,
                        region_start := 4096, region_size := 4096 } : MemBlock) :: S,
                   g_allocations := 2, nextMap := 8192 })) := by
  refine ⟨by decide, by decide, ?_⟩
  exact claim_C1 env0 initState store0 16
    { addr := 4096, alloc_id := 0, name := "", size := 4096, usage := 0,
      region_start := 4096, region_size := 4096 }
    { blocks := [{ addr := 4096, alloc_id := 0, name := "", size := 4096,
                   usage := 0, region_start := 4096, region_size := 4096 }],
      g_allocations := 1, nextMap := 8192 }
    (by decide) (by decide) (by decide) (by decide)

/-- **C3** (amended: sizes whose 8-byte round-up plus header size does not
exceed `size_t`).  `reallocate(p, s)`: null `p` behaves as allocation of `s`;
`s = 0` frees `p` and returns null; otherwise with
`need = align8(s) + sizeof(header)`, a block of `size >= need` is resized in
place (`usage := need`, `p` returned), and a smaller block is reallocated:
fresh allocation, byte copy whose length is the *new aligned* size, free of the
old block, new payload returned. -/
theorem claim_C3 (env : Env) (st : AllocState) (store : Nat → Nat) (p s : Nat)
    (hwf : BlocksWF st.blocks) :
    ( realloc_unsafe env st store 0 s = malloc_unsafe env st store s) ∧
    (∀ st1, p ≠ 0 → free_unsafe st p = some st1 →
      realloc_unsafe env st store p 0 = MallocResult.ok 0 st1 store) ∧
    (∀ current, p ≠ 0 → s ≠ 0 → align8_spec s + HDR_SIZE < UINT64 →
      st.blocks.find? (fun b => b.addr == sub64 p HDR_SIZE) = some current →
      align8_spec s + HDR_SIZE ≤ current.size →
      ∃ P S, st.blocks = P ++ current :: S ∧
        realloc_unsafe env st store p s =
          MallocResult.ok p
            { st with blocks :=
                P ++ { current with usage := align8_spec s + HDR_SIZE } :: S }
            store) ∧
    (∀ current np st1 sto1 st2, p ≠ 0 → s ≠ 0 → align8_spec s + HDR_SIZE < UINT64 →
      st.blocks.find? (fun b => b.addr == sub64 p HDR_SIZE) = some current →
      current.size < align8_spec s + HDR_SIZE →
      malloc_unsafe env st store (align8 s) = MallocResult.ok np st1 sto1 →
      free_unsafe st1 p = some st2 →
      realloc_unsafe env st store p s =
        MallocResult.ok np st2 (memcpy sto1 np p (align8 s)) ∧
      (∀ i, i < align8_spec s → memcpy sto1 np p (align8 s) (np + i) = sto1 (p + i)) ∧
      (∀ a, a < np ∨ np + align8_spec s ≤ a → memcpy sto1 np p (align8 s) a = sto1 a)) := by
  refine ⟨rfl, ?_, ?_, ?_⟩
  · intro st1 hp hfree
    unfold realloc_unsafe
    rw [if_neg hp]
    simp only [if_pos rfl, hfree, if_true]
  · intro current hp hs hbound hfind hfit
    have hspec := align8_eq_spec s (by omega)
    have hmod : (align8 s + HDR_SIZE) % UINT64 = align8 s + HDR_SIZE :=
      Nat.mod_eq_of_lt (by omega)
    have hmem := List.mem_of_find?_eq_some hfind
    have haddr : current.addr = sub64 p HDR_SIZE := by
      have := List.find?_some hfind
      simpa using this
    obtain ⟨P, S, hPS⟩ := List.append_of_mem hmem
    have hnodup := hwf.1
    rw [hPS] at hnodup
    obtain ⟨hPne, hSne⟩ := addr_ne_of_nodup hnodup
    refine ⟨P, S, hPS, ?_⟩
    have hmod2 : (align8_spec s + HDR_SIZE) % UINT64 = align8_spec s + HDR_SIZE :=
      Nat.mod_eq_of_lt hbound
    unfold realloc_unsafe
    rw [if_neg hp, if_neg hs]
    simp only [hspec, hmod2, hfind, if_pos hfit]
    rw [hPS, ← haddr, setUsage_decomp P S current _ hPne hSne]
  · intro current np st1 sto1 st2 hp hs hbound hfind hbig hmal hfree
    have hspec := align8_eq_spec s (by omega)
    have hmod : (align8 s + HDR_SIZE) % UINT64 = align8 s + HDR_SIZE :=
      Nat.mod_eq_of_lt (by omega)
    refine ⟨?_, ?_, ?_⟩
    · unfold realloc_unsafe
      rw [if_neg hp, if_neg hs]
      rw [hspec] at hmal
      have hmod2 : (align8_spec s + HDR_SIZE) % UINT64 = align8_spec s + HDR_SIZE :=
        Nat.mod_eq_of_lt hbound
      have hnfit : ¬ (align8_spec s + HDR_SIZE ≤ current.size) := by omega
      simp only [hspec, hmod2, hfind, if_neg hnfit, hmal, hfree]
    · intro i hi
      unfold memcpy
      rw [if_pos ⟨Nat.le_add_right np i, by rw [hspec]; omega⟩]
      congr 1
      omega
    · intro a ha
      unfold memcpy
      rw [if_neg (by rw [hspec]; omega)]



theorem claim_C3_witness :
    BlocksWF twoBlockState.blocks ∧
    (4176 : Nat) ≠ 0 ∧ (8 : Nat) ≠ 0 ∧ align8_spec 8 + HDR_SIZE < UINT64 ∧
    twoBlockState.blocks.find? (fun b => b.addr == sub64 4176 HDR_SIZE) =
      some { addr := 4096, alloc_id := 0, name := "", size := 96, usage := 96,
             region_start := 4096, region_size := 4096 } ∧
    align8_spec 8 + HDR_SIZE ≤
      ({ addr := 4096, alloc_id := 0, name := "", size := 96, usage := 96,
         region_start := 4096, region_size := 4096 } : MemBlock).size ∧
    ∃ P S, twoBlockState.blocks =
        P ++ ({ addr := 4096, alloc_id := 0, name := "", size := 96, usage := 96,
                region_start := 4096, region_size := 4096 } : MemBlock) :: S ∧
      realloc_unsafe env0 twoBlockState store0 4176 8 =
        MallocResult.ok 4176
          { twoBlockState with blocks :=
              P ++ ({ addr := 4096, alloc_id := 0, name := "", size := 96, usage := 88,
                      region_start := 4096, region_size := 4096 } : MemBlock) :: S }
          store0 := by
  refine ⟨by decide, by decide, by decide, by decide, by decide, by decide, ?_⟩
  exact (claim_C3 env0 twoBlockState store0 4176 8 (by decide)).2.2.1
    { addr := 4096, alloc_id := 0, name := "", size := 96, usage := 96,
      region_start := 4096, region_size := 4096 }
    (by decide) (by decide) (by decide) (by decide) (by decide)

theorem setUsage_append (l1 l2 : List MemBlock) (a n : Nat) :
    setUsage (l1 ++ l2) a n = setUsage l1 a n ++ setUsage l2 a n :=
  List.map_append _ l1 l2

theorem setUsage_eq_self (l : List MemBlock) (a n : Nat)
    (h : ∀ b ∈ l, b.addr ≠ a) : setUsage l a n = l :=
  (List.map_congr_left fun b hb => if_neg (h b hb)).trans (List.map_id l)

theorem setUsage_mem {l : List MemBlock} {a n : Nat} {b : MemBlock}
    (h : b ∈ setUsage l a n) :
    ∃ o ∈ l, b = if o.addr = a then { o with usage := n } else o := by
  obtain ⟨o, ho, heq⟩ := List.mem_map.mp h
  exact ⟨o, ho, heq.symm⟩

theorem setUsage_mem_addr {l : List MemBlock} {a n : Nat} {b : MemBlock}
    (h : b ∈ setUsage l a n) : ∃ o ∈ l, b.addr = o.addr := by
  obtain ⟨o, ho, heq⟩ := setUsage_mem h
  refine ⟨o, ho, ?_⟩
  by_cases hoa : o.addr = a
  · rw [heq, if_pos hoa]
  · rw [heq, if_neg hoa]

theorem setUsage_usage_zero {l : List MemBlock} {a : Nat} {b : MemBlock}
    (h : b ∈ setUsage l a 0) (hb : b.addr = a) : b.usage = 0 := by
  obtain ⟨o, _, heq⟩ := setUsage_mem h
  by_cases hoa : o.addr = a
  · rw [heq, if_pos hoa]
  · rw [heq, if_neg hoa] at hb ⊢
    exact absurd hb hoa

theorem setUsage_length (l : List MemBlock) (a n : Nat) :
    (setUsage l a n).length = l.length := List.length_map _ _

theorem find?_of_addr_nodup (bs : List MemBlock) (c : MemBlock)
    (hnodup : (bs.map MemBlock.addr).Nodup) (hmem : c ∈ bs) :
    bs.find? (fun b => b.addr == c.addr) = some c := by
  induction bs with
  | nil => exact absurd hmem (List.not_mem_nil c)
  | cons b rest ih =>
    rw [List.map_cons, List.nodup_cons] at hnodup
    rcases List.mem_cons.mp hmem with h1 | h1
    · subst h1
      rw [List.find?_cons_of_pos _ (by simp)]
    · have hne : b.addr ≠ c.addr := fun heq =>
        hnodup.1 (heq ▸ List.mem_map_of_mem MemBlock.addr h1)
      rw [List.find?_cons_of_neg _ (by simpa using hne)]
      exact ih hnodup.2 h1

theorem addr_parts {P R S : List MemBlock} {c : MemBlock}
    (h : ((P ++ R ++ S).map MemBlock.addr).Nodup) (hc : c ∈ R) :
    (∀ b ∈ P, b.addr ≠ c.addr) ∧ (∀ b ∈ S, b.addr ≠ c.addr) := by
  rw [List.append_assoc, List.map_append] at h
  have hdisj := List.disjoint_of_nodup_append h
  have hRS := (List.nodup_append.mp h).2.1
  constructor
  · intro b hb heq
    refine hdisj (List.mem_map_of_mem MemBlock.addr hb) ?_
    rw [List.map_append]
    exact heq ▸ List.mem_append_left _ (List.mem_map_of_mem MemBlock.addr hc)
  · intro b hb heq
    rw [List.map_append, List.nodup_append] at hRS
    exact hRS.2.2 (List.mem_map_of_mem MemBlock.addr hc)
      (heq ▸ List.mem_map_of_mem MemBlock.addr hb)

theorem split_at_addr_spec (a : Nat) (l1 : List MemBlock) (hd : MemBlock)
    (tl : List MemBlock) (h1 : ∀ b ∈ l1, b.addr ≠ a) (hhd : hd.addr = a) :
    split_at_addr a (l1 ++ hd :: tl) = (l1, hd :: tl) := by
  induction l1 with
  | nil => simp [split_at_addr, hhd]
  | cons b rest ih =>
    have hb := h1 b (List.mem_cons_self b rest)
    have hrest := fun c hc => h1 c (List.mem_cons_of_mem b hc)
    rw [List.cons_append]
    show split_at_addr a (b :: (rest ++ hd :: tl)) = _
    unfold split_at_addr
    rw [if_neg hb, ih hrest]

theorem region_walk_cons (rh re : Nat) (b : MemBlock) (rest : List MemBlock) :
    region_walk rh re (b :: rest) =
      if rh ≤ b.addr ∧ b.addr < re then
        if b.usage = 0 then region_walk rh re rest else (false, b :: rest)
      else (true, b :: rest) := rfl

theorem region_walk_zero_prefix (rh re : Nat) (l1 l2 : List MemBlock)
    (h : ∀ b ∈ l1, (rh ≤ b.addr ∧ b.addr < re) ∧ b.usage = 0) :
    region_walk rh re (l1 ++ l2) = region_walk rh re l2 := by
  induction l1 with
  | nil => rfl
  | cons b rest ih =>
    have hb := h b (List.mem_cons_self b rest)
    have hrest := fun c hc => h c (List.mem_cons_of_mem b hc)
    rw [List.cons_append, region_walk_cons, if_pos hb.1, if_pos hb.2]
    exact ih hrest

theorem region_walk_stop (rh re : Nat) (l2 : List MemBlock)
    (h : l2 = [] ∨ ∃ hd tl, l2 = hd :: tl ∧ ¬ (rh ≤ hd.addr ∧ hd.addr < re)) :
    region_walk rh re l2 = (true, l2) := by
  rcases h with h | ⟨hd, tl, heq, hout⟩
  · subst h; rfl
  · subst heq
    rw [region_walk_cons, if_neg hout]

theorem region_walk_nonzero (rh re : Nat) (l1 l2 : List MemBlock)
    (hin : ∀ b ∈ l1, rh ≤ b.addr ∧ b.addr < re)
    (hnz : ∃ b ∈ l1, b.usage ≠ 0) :
    (region_walk rh re (l1 ++ l2)).1 = false := by
  induction l1 with
  | nil => obtain ⟨b, hb, _⟩ := hnz; exact absurd hb (List.not_mem_nil b)
  | cons b rest ih =>
    have hb := hin b (List.mem_cons_self b rest)
    have hrest := fun c hc => hin c (List.mem_cons_of_mem b hc)
    rw [List.cons_append, region_walk_cons, if_pos hb]
    by_cases hz : b.usage = 0
    · rw [if_pos hz]
      obtain ⟨c, hc, hcnz⟩ := hnz
      rcases List.mem_cons.mp hc with h1 | h1
      · exact absurd (h1 ▸ hz) hcnz
      · exact ih hrest ⟨c, h1, hcnz⟩
    · rw [if_neg hz]



theorem find?_append_none {q : MemBlock → Bool} {l1 l2 : List MemBlock}
    (h : l1.find? q = none) : (l1 ++ l2).find? q = l2.find? q := by
  induction l1 with
  | nil => rfl
  | cons b rest ih =>
    rw [List.find?_cons] at h
    rcases hq : q b with _ | _
    · rw [hq] at h
      rw [List.cons_append, List.find?_cons, hq]
      exact ih h
    · rw [hq] at h
      exact absurd h (by simp)

/-- **C2** (confirmed).  Releasing a payload pointer `p` of a block `cur` of a
well-formed heap whose region (the run `R` of headers with addresses inside
`[region_start, region_start + region_size)`, headed by the header at
`region_start`) sits between `P` and `S` on the global list: `usage` of `cur`
becomes 0; the region is unmapped exactly when, after that write, every header
inside the region has `usage = 0`; on unmap the list is stitched past the
region (`P ++ S`): with an empty `P` — head equal to the region start — the new
head is the first header outside the region, and otherwise the predecessor
(the last block of `P`) is linked to that first-outside header. -/
theorem claim_C2 (st : AllocState) (p : Nat) (cur r0 : MemBlock)
    (P R S : List MemBlock)
    (hsplit : st.blocks = P ++ R ++ S)
    (hcur : cur ∈ R)
    (hp : p = cur.addr + HDR_SIZE)
    (hwf : BlocksWF st.blocks)
    (hr0 : R.head? = some r0)
    (hr0a : r0.addr = cur.region_start)
    (hRin : ∀ b ∈ R, cur.region_start ≤ b.addr ∧
      b.addr < cur.region_start + r0.region_size)
    (hout : ∀ b ∈ P ++ S, ¬ (cur.region_start ≤ b.addr ∧
      b.addr < cur.region_start + r0.region_size))
    (hre : cur.region_start + r0.region_size < UINT64) :
    ∃ st', free_unsafe st p = some st' ∧
      (∀ b ∈ st'.blocks, b.addr = cur.addr → b.usage = 0) ∧
      (st'.blocks = P ++ S ↔ ∀ b ∈ setUsage R cur.addr 0, b.usage = 0) ∧
      ((∃ b ∈ R, b.addr ≠ cur.addr ∧ b.usage ≠ 0) →
        st'.blocks = P ++ setUsage R cur.addr 0 ++ S) ∧
      ((∀ b ∈ setUsage R cur.addr 0, b.usage = 0) →
        st'.blocks = P ++ S ∧ (P = [] → st'.blocks.head? = S.head?)) := by
  obtain ⟨Rt, rfl⟩ : ∃ Rt, R = r0 :: Rt := by
    cases R with
    | nil => simp at hr0
    | cons hd tl =>
      rw [List.head?_cons, Option.some.injEq] at hr0
      exact ⟨tl, by rw [hr0]⟩
  have hcm : cur ∈ st.blocks := by
    rw [hsplit]; exact List.mem_append_left _ (List.mem_append_right _ hcur)
  have hwcur := hwf.2 cur hcm
  have hHDR : HDR_SIZE = 80 := rfl
  have hp0 : p ≠ 0 := by rw [hp]; omega
  have hsubp : sub64 p HDR_SIZE = cur.addr := by
    rw [hp, sub64_eq_sub _ _ (Nat.le_add_left _ _) (by omega)]; omega
  have hfind1 : st.blocks.find? (fun b => b.addr == cur.addr) = some cur :=
    find?_of_addr_nodup _ _ hwf.1 hcm
  have hnodup3 : ((P ++ (r0 :: Rt) ++ S).map MemBlock.addr).Nodup := by
    rw [← hsplit]; exact hwf.1
  obtain ⟨hPne, hSne⟩ := addr_parts hnodup3 hcur
  obtain ⟨hPne0, hSne0⟩ := addr_parts hnodup3 (List.mem_cons_self r0 Rt)
  have hb1 : setUsage st.blocks cur.addr 0 =
      P ++ setUsage (r0 :: Rt) cur.addr 0 ++ S := by
    rw [hsplit, setUsage_append, setUsage_append,
      setUsage_eq_self P _ _ hPne, setUsage_eq_self S _ _ hSne]
  have hR'cons : setUsage (r0 :: Rt) cur.addr 0 =
      (if r0.addr = cur.addr then { r0 with usage := 0 } else r0) ::
        setUsage Rt cur.addr 0 := rfl
  set r0' := if r0.addr = cur.addr then { r0 with usage := 0 } else r0 with hr0x
  set Rt' := setUsage Rt cur.addr 0 with hRtx
  have hr0'a : r0'.addr = r0.addr := by
    rw [hr0x]; by_cases h : r0.addr = cur.addr
    · rw [if_pos h]
    · rw [if_neg h]
  have hr0'rs : r0'.region_size = r0.region_size := by
    rw [hr0x]; by_cases h : r0.addr = cur.addr
    · rw [if_pos h]
    · rw [if_neg h]
  have hfind2 : (P ++ (r0' :: Rt') ++ S).find?
      (fun b => b.addr == cur.region_start) = some r0' := by
    rw [List.append_assoc]
    rw [find?_append_none (List.find?_eq_none.mpr fun b hb => by
      simpa using fun heq => hPne0 b hb (heq.trans hr0a.symm))]
    rw [List.cons_append, List.find?_cons_of_pos _ (by
      simp [hr0'a, hr0a])]
  have hre2 : (cur.region_start + r0'.region_size) % UINT64 =
      cur.region_start + r0.region_size := by
    rw [hr0'rs]; exact Nat.mod_eq_of_lt hre
  have hsp : split_at_addr cur.region_start (P ++ (r0' :: Rt') ++ S) =
      (P, r0' :: (Rt' ++ S)) := by
    rw [List.append_assoc, List.cons_append]
    exact split_at_addr_spec _ P r0' (Rt' ++ S)
      (fun b hb heq => hPne0 b hb (heq.trans hr0a.symm)) (hr0'a.trans hr0a)
  have hR'mem : ∀ b ∈ r0' :: Rt', cur.region_start ≤ b.addr ∧
      b.addr < cur.region_start + r0.region_size := by
    intro b hb
    have hb' : b ∈ setUsage (r0 :: Rt) cur.addr 0 := by
      rw [hR'cons]; exact hb
    obtain ⟨o, ho, heq⟩ := setUsage_mem_addr hb'
    rw [heq]; exact hRin o ho
  by_cases hall : ∀ b ∈ r0' :: Rt', b.usage = 0
  · -- region drained: unmap and stitch
    have hwalk : region_walk cur.region_start
        (cur.region_start + r0.region_size) (r0' :: (Rt' ++ S)) = (true, S) := by
      have h1 : region_walk cur.region_start (cur.region_start + r0.region_size)
          ((r0' :: Rt') ++ S) = region_walk cur.region_start
            (cur.region_start + r0.region_size) S :=
        region_walk_zero_prefix _ _ _ _ fun b hb => ⟨hR'mem b hb, hall b hb⟩
      rw [List.cons_append] at h1
      rw [h1]
      apply region_walk_stop
      cases S with
      | nil => exact Or.inl rfl
      | cons s0 stl =>
        exact Or.inr ⟨s0, stl, rfl,
          hout s0 (List.mem_append_right _ (List.mem_cons_self s0 stl))⟩
    have heval : free_unsafe st p = some { st with blocks := P ++ S } := by
      unfold free_unsafe
      rw [if_neg hp0]
      simp only [hsubp, hfind1, hb1, hR'cons, ← hr0x, ← hRtx, hfind2,
        hre2, hsp, hwalk, if_true]
    refine ⟨{ st with blocks := P ++ S }, heval, ?_, ?_, ?_, ?_⟩
    · intro b hb heq
      rcases List.mem_append.mp hb with h1 | h1
      · exact absurd heq (hPne b h1)
      · exact absurd heq (hSne b h1)
    · constructor
      · intro _
        rw [hR'cons]; exact hall
      · intro _; rfl
    · intro ⟨b, hb, hbne, hbnz⟩
      exfalso
      have hbR' : b ∈ setUsage (r0 :: Rt) cur.addr 0 :=
        List.mem_map.mpr ⟨b, hb, if_neg hbne⟩
      rw [hR'cons] at hbR'
      exact hbnz (hall b hbR')
    · intro _
      refine ⟨rfl, ?_⟩
      intro hPnil
      rw [hPnil, List.nil_append]
  · -- a live block remains: only the usage write happens
    push_neg at hall
    obtain ⟨w, hw, hwnz⟩ := hall
    have hwalk1 : (region_walk cur.region_start
        (cur.region_start + r0.region_size) (r0' :: (Rt' ++ S))).1 = false := by
      have := region_walk_nonzero cur.region_start
        (cur.region_start + r0.region_size) (r0' :: Rt') S hR'mem ⟨w, hw, hwnz⟩
      rw [List.cons_append] at this
      exact this
    have heval : free_unsafe st p =
        some { st with blocks := P ++ (r0' :: Rt') ++ S } := by
      unfold free_unsafe
      rw [if_neg hp0]
      simp only [hsubp, hfind1, hb1, hR'cons, ← hr0x, ← hRtx, hfind2,
        hre2, hsp]
      rw [if_neg (by rw [hwalk1]; simp)]
    refine ⟨{ st with blocks := P ++ (r0' :: Rt') ++ S }, heval, ?_, ?_, ?_, ?_⟩
    · intro b hb heq
      rcases List.mem_append.mp hb with h1 | h1
      · rcases List.mem_append.mp h1 with h2 | h2
        · exact absurd heq (hPne b h2)
        · have h2' : b ∈ setUsage (r0 :: Rt) cur.addr 0 := by
            rw [hR'cons]; exact h2
          exact setUsage_usage_zero h2' heq
      · exact absurd heq (hSne b h1)
    · constructor
      · intro heq
        exfalso
        have hlen := congrArg List.length heq
        simp only [List.length_append, List.length_cons] at hlen
        omega
      · intro h
        exfalso
        exact hwnz (h w (by rw [hR'cons]; exact hw))
    · intro _
      rw [hR'cons]
    · intro h
      exfalso
      exact hwnz (h w (by rw [hR'cons]; exact hw))



theorem claim_C2_witness :
    (twoBlockState.blocks =
      [] ++ [({ addr := 4096, alloc_id := 0, name := "", size := 96, usage := 96,
                region_start := 4096, region_size := 4096 } : MemBlock),
             ({ addr := 4192, alloc_id := 1, name := "", size := 4000, usage := 96,
                region_start := 4096, region_size := 4096 } : MemBlock)] ++ []) ∧
    BlocksWF twoBlockState.blocks ∧
    (4176 : Nat) = 4096 + HDR_SIZE ∧
    ∃ st', free_unsafe twoBlockState 4176 = some st' ∧
      (∀ b ∈ st'.blocks, b.addr = 4096 → b.usage = 0) ∧
      (st'.blocks = [] ++ [] ↔
        ∀ b ∈ setUsage
          [({ addr := 4096, alloc_id := 0, name := "", size := 96, usage := 96,
              region_start := 4096, region_size := 4096 } : MemBlock),
           ({ addr := 4192, alloc_id := 1, name := "", size := 4000, usage := 96,
              region_start := 4096, region_size := 4096 } : MemBlock)] 4096 0,
          b.usage = 0) ∧
      ((∃ b ∈ [({ addr := 4096, alloc_id := 0, name := "", size := 96, usage := 96,
                  region_start := 4096, region_size := 4096 } : MemBlock),
               ({ addr := 4192, alloc_id := 1, name := "", size := 4000, usage := 96,
                  region_start := 4096, region_size := 4096 } : MemBlock)],
          b.addr ≠ 4096 ∧ b.usage ≠ 0) →
        st'.blocks = [] ++ setUsage
          [({ addr := 4096, alloc_id := 0, name := "", size := 96, usage := 96,
              region_start := 4096, region_size := 4096 } : MemBlock),
           ({ addr := 4192, alloc_id := 1, name := "", size := 4000, usage := 96,
              region_start := 4096, region_size := 4096 } : MemBlock)] 4096 0 ++ []) ∧
      ((∀ b ∈ setUsage
          [({ addr := 4096, alloc_id := 0, name := "", size := 96, usage := 96,
              region_start := 4096, region_size := 4096 } : MemBlock),
           ({ addr := 4192, alloc_id := 1, name := "", size := 4000, usage := 96,
              region_start := 4096, region_size := 4096 } : MemBlock)] 4096 0,
          b.usage = 0) →
        st'.blocks = [] ++ [] ∧
        (([] : List MemBlock) = [] → st'.blocks.head? = ([] : List MemBlock).head?)) := by
  refine ⟨rfl, by decide, rfl, ?_⟩
  exact claim_C2 twoBlockState 4176
    { addr := 4096, alloc_id := 0, name := "", size := 96, usage := 96,
      region_start := 4096, region_size := 4096 }
    { addr := 4096, alloc_id := 0, name := "", size := 96, usage := 96,
      region_start := 4096, region_size := 4096 }
    []
    [{ addr := 4096, alloc_id := 0, name := "", size := 96, usage := 96,
       region_start := 4096, region_size := 4096 },
     { addr := 4192, alloc_id := 1, name := "", size := 4000, usage := 96,
       region_start := 4096, region_size := 4096 }]
    []
    rfl (by decide) rfl (by decide) rfl rfl (by decide) (by decide) (by decide)

theorem first_fit_mem (need : Nat) (bs : List MemBlock) (b : MemBlock)
    (h : first_fit need bs = some b) : b ∈ bs := by
  induction bs with
  | nil => cases h
  | cons c rest ih =>
    unfold first_fit at h
    by_cases hc : (need + c.usage) % UINT64 ≤ c.size
    · rw [if_pos hc] at h
      injection h with h
      exact h ▸ List.mem_cons_self c rest
    · rw [if_neg hc] at h
      exact List.mem_cons_of_mem c (ih h)

theorem best_fit_go_mem (need : Nat) (bs : List MemBlock) :
    ∀ acc b, best_fit_go need bs acc = some b → b ∈ bs ∨ acc = some b := by
  induction bs with
  | nil =>
    intro acc b h
    right
    simpa [best_fit_go] using h
  | cons c rest ih =>
    intro acc b h
    rw [best_fit_go_cons] at h
    by_cases hc : (need + c.usage) % UINT64 ≤ c.size
    · rw [if_pos hc] at h
      cases acc with
      | none =>
        rcases ih (some c) b h with h1 | h1
        · exact Or.inl (List.mem_cons_of_mem c h1)
        · injection h1 with h1
          exact Or.inl (h1 ▸ List.mem_cons_self c rest)
      | some a =>
        by_cases hlt : sub64 c.size c.usage < sub64 a.size a.usage
        · simp only [if_pos hlt] at h
          rcases ih (some c) b h with h1 | h1
          · exact Or.inl (List.mem_cons_of_mem c h1)
          · injection h1 with h1
            exact Or.inl (h1 ▸ List.mem_cons_self c rest)
        · simp only [if_neg hlt] at h
          rcases ih (some a) b h with h1 | h1
          · exact Or.inl (List.mem_cons_of_mem c h1)
          · exact Or.inr h1
    · rw [if_neg hc] at h
      rcases ih acc b h with h1 | h1
      · exact Or.inl (List.mem_cons_of_mem c h1)
      · exact Or.inr h1

theorem worst_fit_go_mem (need : Nat) (bs : List MemBlock) :
    ∀ acc b, worst_fit_go need bs acc = some b → b ∈ bs ∨ acc = some b := by
  induction bs with
  | nil =>
    intro acc b h
    right
    simpa [worst_fit_go] using h
  | cons c rest ih =>
    intro acc b h
    rw [worst_fit_go_cons] at h
    by_cases hc : (need + c.usage) % UINT64 ≤ c.size
    · rw [if_pos hc] at h
      cases acc with
      | none =>
        rcases ih (some c) b h with h1 | h1
        · exact Or.inl (List.mem_cons_of_mem c h1)
        · injection h1 with h1
          exact Or.inl (h1 ▸ List.mem_cons_self c rest)
      | some a =>
        by_cases hlt : sub64 a.size a.usage < sub64 c.size c.usage
        · simp only [if_pos hlt] at h
          rcases ih (some c) b h with h1 | h1
          · exact Or.inl (List.mem_cons_of_mem c h1)
          · injection h1 with h1
            exact Or.inl (h1 ▸ List.mem_cons_self c rest)
        · simp only [if_neg hlt] at h
          rcases ih (some a) b h with h1 | h1
          · exact Or.inl (List.mem_cons_of_mem c h1)
          · exact Or.inr h1
    · rw [if_neg hc] at h
      rcases ih acc b h with h1 | h1
      · exact Or.inl (List.mem_cons_of_mem c h1)
      · exact Or.inr h1

theorem reuse_mem (env : Env) (need : Nat) (bs : List MemBlock) (b : MemBlock)
    (h : reuse env need bs = some b) : b ∈ bs := by
  unfold reuse at h
  cases henv : env.algo with
  | none =>
    simp only [henv] at h
    exact first_fit_mem need bs b (by simpa using h)
  | some a =>
    simp only [henv] at h
    by_cases h1 : a = "first_fit"
    · rw [if_pos h1] at h
      exact first_fit_mem need bs b h
    · rw [if_neg h1] at h
      by_cases h2 : a = "best_fit"
      · rw [if_pos h2] at h
        rcases best_fit_go_mem need bs none b h with hm | hm
        · exact hm
        · cases hm
      · rw [if_neg h2] at h
        by_cases h3 : a = "worst_fit"
        · rw [if_pos h3] at h
          rcases worst_fit_go_mem need bs none b h with hm | hm
          · exact hm
          · cases hm
        · rw [if_neg h3] at h
          cases h

theorem choose_block_cases (env : Env) (st : AllocState) (a : Nat)
    (chosen : MemBlock) (st1 : AllocState)
    (h : choose_block env st a = some (chosen, st1)) :
    (st1 = st ∧ chosen ∈ st.blocks) ∨
    (chosen.usage = 0 ∧ chosen.alloc_id = st.g_allocations ∧
      st1.blocks = st.blocks ++ [chosen] ∧
      st1.g_allocations = st.g_allocations + 1) := by
  unfold choose_block at h
  cases hr : reuse env a st.blocks with
  | some b =>
    rw [hr] at h
    injection h with h
    rw [Prod.mk.injEq] at h
    exact Or.inl ⟨h.2.symm, h.1 ▸ reuse_mem env a st.blocks b hr⟩
  | none =>
    rw [hr] at h
    unfold expand_heap at h
    by_cases hcond : env.mmapOk = true ∧
        0 < a / PAGE_SIZE + (if a % PAGE_SIZE = 0 then 0 else 1)
    · rw [if_pos hcond] at h
      injection h with h
      rw [Prod.mk.injEq] at h
      obtain ⟨hc, hst⟩ := h
      refine Or.inr ⟨?_, ?_, ?_, ?_⟩
      · rw [← hc]
      · rw [← hc]
      · rw [← hst, ← hc]
      · rw [← hst]
    · rw [if_neg hcond] at h
      cases h

theorem splitInsert_mem {a : Nat} {nb : MemBlock} {bs : List MemBlock}
    {b : MemBlock} (h : b ∈ splitInsert a nb bs) :
    b = nb ∨ b ∈ bs ∨ ∃ o ∈ bs, b = { o with size := o.usage } := by
  induction bs with
  | nil => cases h
  | cons c rest ih =>
    unfold splitInsert at h
    by_cases hc : c.addr = a
    · rw [if_pos hc] at h
      rcases List.mem_cons.mp h with h1 | h1
      · exact Or.inr (Or.inr ⟨c, List.mem_cons_self c rest, h1⟩)
      · rcases List.mem_cons.mp h1 with h2 | h2
        · exact Or.inl h2
        · exact Or.inr (Or.inl (List.mem_cons_of_mem c h2))
    · rw [if_neg hc] at h
      rcases List.mem_cons.mp h with h1 | h1
      · exact Or.inr (Or.inl (h1 ▸ List.mem_cons_self c rest))
      · rcases ih h1 with h2 | h2 | ⟨o, ho, heq⟩
        · exact Or.inl h2
        · exact Or.inr (Or.inl (List.mem_cons_of_mem c h2))
        · exact Or.inr (Or.inr ⟨o, List.mem_cons_of_mem c ho, heq⟩)

theorem splitInsert_mem_id {a : Nat} {nb : MemBlock} {bs : List MemBlock}
    {b : MemBlock} (h : b ∈ splitInsert a nb bs) :
    b.alloc_id = nb.alloc_id ∨ ∃ o ∈ bs, b.alloc_id = o.alloc_id := by
  rcases splitInsert_mem h with h1 | h1 | ⟨o, ho, heq⟩
  · exact Or.inl (h1 ▸ rfl)
  · exact Or.inr ⟨b, h1, rfl⟩
  · exact Or.inr ⟨o, ho, heq ▸ rfl⟩

theorem splitInsert_id_nodup (a : Nat) (nb : MemBlock) (bs : List MemBlock)
    (hnodup : (bs.map MemBlock.alloc_id).Nodup)
    (hnew : nb.alloc_id ∉ bs.map MemBlock.alloc_id) :
    ((splitInsert a nb bs).map MemBlock.alloc_id).Nodup := by
  induction bs with
  | nil => simp [splitInsert]
  | cons c rest ih =>
    rw [List.map_cons, List.nodup_cons] at hnodup
    rw [List.map_cons] at hnew
    have hnc : nb.alloc_id ≠ c.alloc_id := fun heq =>
      hnew (heq ▸ List.mem_cons_self _ _)
    have hnrest : nb.alloc_id ∉ rest.map MemBlock.alloc_id := fun hm =>
      hnew (List.mem_cons_of_mem _ hm)
    unfold splitInsert
    by_cases hc : c.addr = a
    · rw [if_pos hc]
      simp only [List.map_cons, List.nodup_cons]
      refine ⟨?_, hnrest, hnodup.2⟩
      intro hm
      rcases List.mem_cons.mp hm with h1 | h1
      · exact hnc h1.symm
      · exact hnodup.1 h1
    · rw [if_neg hc]
      simp only [List.map_cons, List.nodup_cons]
      refine ⟨?_, ih hnodup.2 hnrest⟩
      intro hm
      obtain ⟨x, hx, hxid⟩ := List.mem_map.mp hm
      rcases splitInsert_mem_id hx with h1 | ⟨o, ho, heq⟩
      · exact hnc (hxid ▸ h1 ▸ rfl)
      · exact hnodup.1 (hxid ▸ heq ▸ List.mem_map_of_mem MemBlock.alloc_id ho)



theorem malloc_state_cases (env : Env) (st : AllocState) (store : Nat → Nat)
    (s p : Nat) (st1 : AllocState) (sto1 : Nat → Nat)
    (h : malloc_unsafe env st store s = MallocResult.ok p st1 sto1) :
    ∃ chosen stc,
      choose_block env st ((align8 s + HDR_SIZE) % UINT64) = some (chosen, stc) ∧
      ((chosen.usage = 0 ∧
        st1 = { stc with
          blocks := setUsage stc.blocks chosen.addr ((align8 s + HDR_SIZE) % UINT64) }) ∨
       (chosen.usage ≠ 0 ∧
        st1 = { stc with
          blocks := splitInsert chosen.addr
            { addr := (chosen.addr + chosen.usage) % UINT64
              alloc_id := stc.g_allocations
              name := ""
              size := sub64 chosen.size chosen.usage
              usage := (align8 s + HDR_SIZE) % UINT64
              region_start := chosen.region_start
              region_size := chosen.region_size } stc.blocks
          g_allocations := stc.g_allocations + 1 })) := by
  unfold malloc_unsafe at h
  cases hcb : choose_block env st ((align8 s + HDR_SIZE) % UINT64) with
  | none =>
    simp only [hcb] at h
    cases h
  | some pr =>
    obtain ⟨chosen, stc⟩ := pr
    refine ⟨chosen, stc, rfl, ?_⟩
    simp only [hcb] at h
    by_cases hz : chosen.usage = 0
    · rw [if_pos hz] at h
      injection h with h1 h2 h3
      exact Or.inl ⟨hz, h2.symm⟩
    · rw [if_neg hz] at h
      injection h with h1 h2 h3
      exact Or.inr ⟨hz, h2.symm⟩

theorem setUsage_map_id (l : List MemBlock) (a n : Nat) :
    (setUsage l a n).map MemBlock.alloc_id = l.map MemBlock.alloc_id := by
  unfold setUsage
  rw [List.map_map]
  exact List.map_congr_left fun b _ => by
    by_cases h : b.addr = a
    · simp [Function.comp, h]
    · simp [Function.comp, h]

theorem setName_map_id (l : List MemBlock) (a : Nat) (nm : String) :
    (setName l a nm).map MemBlock.alloc_id = l.map MemBlock.alloc_id := by
  unfold setName
  rw [List.map_map]
  exact List.map_congr_left fun b _ => by
    by_cases h : b.addr = a
    · simp [Function.comp, h]
    · simp [Function.comp, h]

theorem setName_mem {l : List MemBlock} {a : Nat} {nm : String} {b : MemBlock}
    (h : b ∈ setName l a nm) :
    ∃ o ∈ l, b = if o.addr = a then { o with name := nm } else o := by
  obtain ⟨o, ho, heq⟩ := List.mem_map.mp h
  exact ⟨o, ho, heq.symm⟩

theorem malloc_usage_nonzero (env : Env) (st : AllocState) (store : Nat → Nat)
    (s p : Nat) (st1 : AllocState) (sto1 : Nat → Nat)
    (hs : (align8 s + HDR_SIZE) % UINT64 ≠ 0)
    (hinv : ∀ b ∈ st.blocks, b.usage ≠ 0)
    (h : malloc_unsafe env st store s = MallocResult.ok p st1 sto1) :
    ∀ b ∈ st1.blocks, b.usage ≠ 0 := by
  obtain ⟨chosen, stc, hcb, hcase⟩ := malloc_state_cases env st store s p st1 sto1 h
  have hstc : ∀ b ∈ stc.blocks, b = chosen ∨ b.usage ≠ 0 := by
    rcases choose_block_cases env st _ chosen stc hcb with ⟨hst, _⟩ | ⟨_, _, hbl, _⟩
    · intro b hb
      exact Or.inr (hinv b (hst ▸ hb))
    · intro b hb
      rw [hbl] at hb
      rcases List.mem_append.mp hb with h1 | h1
      · exact Or.inr (hinv b h1)
      · rcases List.mem_cons.mp h1 with h2 | h2
        · exact Or.inl h2
        · exact absurd h2 (List.not_mem_nil b)
  rcases hcase with ⟨hz, hst1⟩ | ⟨hz, hst1⟩
  · intro b hb
    rw [hst1] at hb
    obtain ⟨o, ho, heq⟩ := setUsage_mem hb
    by_cases hoa : o.addr = chosen.addr
    · rw [heq, if_pos hoa]
      exact hs
    · rw [heq, if_neg hoa]
      rcases hstc o ho with h1 | h1
      · exact absurd (h1 ▸ rfl) hoa
      · exact h1
  · intro b hb
    rw [hst1] at hb
    rcases splitInsert_mem hb with h1 | h1 | ⟨o, ho, heq⟩
    · rw [h1]
      exact hs
    · rcases hstc b h1 with h2 | h2
      · exact h2 ▸ hz
      · exact h2
    · rcases hstc o ho with h2 | h2
      · rw [heq, h2]
        exact hz
      · rw [heq]
        exact h2

theorem freeLastInv_of_nonzero (st : AllocState)
    (h : ∀ b ∈ st.blocks, b.usage ≠ 0) : freeLastInv st := by
  intro b hb
  constructor
  · have : (regionBlocksOf st b.region_start).countP (fun c => c.usage == 0) = 0 := by
      rw [List.countP_eq_zero]
      intro c hc
      have hcm : c ∈ st.blocks := List.mem_of_mem_filter hc
      simpa using h c hcm
    omega
  · intro hz
    exact absurd hz (h b hb)

theorem runFrom_allocs_nonzero (env : Env) (sizes : List Nat) :
    ∀ (st : AllocState) (store : Nat → Nat) (st1 : AllocState) (sto1 : Nat → Nat),
    (∀ s ∈ sizes, (align8 s + HDR_SIZE) % UINT64 ≠ 0) →
    (∀ b ∈ st.blocks, b.usage ≠ 0) →
    runFrom env st store (sizes.map Call.alloc) = some (st1, sto1) →
    ∀ b ∈ st1.blocks, b.usage ≠ 0 := by
  induction sizes with
  | nil =>
    intro st store st1 sto1 _ hinv hrun
    injection hrun with hrun
    rw [Prod.mk.injEq] at hrun
    exact hrun.1 ▸ hinv
  | cons s rest ih =>
    intro st store st1 sto1 hs hinv hrun
    rw [List.map_cons] at hrun
    unfold runFrom at hrun
    cases hmal : malloc_unsafe env st store s with
    | crash =>
      have hst : step env st store (Call.alloc s) = none := by
        simp only [step, hmal]
      rw [hst] at hrun
      cases hrun
    | ok p stm som =>
      have hst : step env st store (Call.alloc s) = some (stm, som) := by
        simp only [step, hmal]
      rw [hst] at hrun
      exact ih stm som st1 sto1
        (fun x hx => hs x (List.mem_cons_of_mem s hx))
        (malloc_usage_nonzero env st store s p stm som
          (hs s (List.mem_cons_self s rest)) hinv hmal)
        hrun

/-- **C6** (amended: states reachable by unnamed allocation calls alone, each
of a size whose header-inclusive aligned request is nonzero mod `2^64`).  In
every such state no header is free at all, so each region contains at most one
free header and a free header, when one exists, is the last of its region;
releasing a non-final block of a live region breaks the claimed invariant
(see the counterexample). -/
theorem claim_C6 (env : Env) (sizes : List Nat) (st : AllocState)
    (hs : ∀ s ∈ sizes, (align8 s + HDR_SIZE) % UINT64 ≠ 0)
    (hrun : runS env (sizes.map Call.alloc) = some st) :
    freeLastInv st := by
  unfold runS at hrun
  cases hr : runFrom env initState store0 (sizes.map Call.alloc) with
  | none => rw [hr] at hrun; cases hrun
  | some pr =>
    rw [hr] at hrun
    obtain ⟨st1, sto1⟩ := pr
    injection hrun with hrun
    refine freeLastInv_of_nonzero st ?_
    have := runFrom_allocs_nonzero env sizes initState store0 st1 sto1 hs
      (by intro b hb; exact absurd hb (List.not_mem_nil b)) hr
    exact hrun ▸ this

theorem claim_C6_witness :
    (∀ s ∈ [16], (align8 s + HDR_SIZE) % UINT64 ≠ 0) ∧
    runS env0 ([16].map Call.alloc) =
      some { blocks := [{ addr := 4096, alloc_id := 0, name := "", size := 4096,
                          usage := 96, region_start := 4096, region_size := 4096 }],
             g_allocations := 1, nextMap := 8192 } ∧
    freeLastInv { blocks := [{ addr := 4096, alloc_id := 0, name := "", size := 4096,
                               usage := 96, region_start := 4096, region_size := 4096 }],
                  g_allocations := 1, nextMap := 8192 } := by
  refine ⟨by decide, rfl, ?_⟩
  exact claim_C6 env0 [16] _ (by decide) rfl



theorem split_at_addr_eq (a : Nat) (l : List MemBlock) :
    (split_at_addr a l).1 ++ (split_at_addr a l).2 = l := by
  induction l with
  | nil => rfl
  | cons b rest ih =>
    unfold split_at_addr
    by_cases hb : b.addr = a
    · rw [if_pos hb]
      rfl
    · rw [if_neg hb]
      show b :: (split_at_addr a rest).1 ++ (split_at_addr a rest).2 = b :: rest
      rw [List.cons_append, ih]

theorem region_walk_sublist (rh re : Nat) (l : List MemBlock) :
    (region_walk rh re l).2.Sublist l := by
  induction l with
  | nil => exact List.Sublist.refl _
  | cons b rest ih =>
    rw [region_walk_cons]
    by_cases h1 : rh ≤ b.addr ∧ b.addr < re
    · rw [if_pos h1]
      by_cases h2 : b.usage = 0
      · rw [if_pos h2]
        exact ih.trans (List.sublist_cons_self b rest)
      · rw [if_neg h2]
    · rw [if_neg h1]

theorem free_unsafe_cases (st : AllocState) (q : Nat) (st1 : AllocState)
    (h : free_unsafe st q = some st1) :
    st1 = st ∨
    (st1.g_allocations = st.g_allocations ∧
      st1.blocks.Sublist (setUsage st.blocks (sub64 q HDR_SIZE) 0)) := by
  unfold free_unsafe at h
  by_cases hq : q = 0
  · rw [if_pos hq] at h
    injection h with h
    exact Or.inl h.symm
  · rw [if_neg hq] at h
    cases hf1 : st.blocks.find? (fun b => b.addr == sub64 q HDR_SIZE) with
    | none => simp only [hf1] at h; cases h
    | some cur =>
      simp only [hf1] at h
      cases hf2 : (setUsage st.blocks (sub64 q HDR_SIZE) 0).find?
          (fun b => b.addr == cur.region_start) with
      | none => simp only [hf2] at h; cases h
      | some rhb =>
        simp only [hf2] at h
        cases hsuf : (split_at_addr cur.region_start
            (setUsage st.blocks (sub64 q HDR_SIZE) 0)).2 with
        | nil => simp only [hsuf] at h; cases h
        | cons s0 stl =>
          simp only [hsuf] at h
          by_cases hw : (region_walk cur.region_start
              ((cur.region_start + rhb.region_size) % UINT64) (s0 :: stl)).1 = true
          · rw [if_pos hw] at h
            injection h with h
            refine Or.inr ⟨by rw [← h], ?_⟩
            have h1 := region_walk_sublist cur.region_start
              ((cur.region_start + rhb.region_size) % UINT64) (s0 :: stl)
            have hsub2 := List.Sublist.append_left h1
              (split_at_addr cur.region_start
                (setUsage st.blocks (sub64 q HDR_SIZE) 0)).1
            have heq : (split_at_addr cur.region_start
                (setUsage st.blocks (sub64 q HDR_SIZE) 0)).1 ++ (s0 :: stl) =
                setUsage st.blocks (sub64 q HDR_SIZE) 0 := by
              rw [← hsuf]
              exact split_at_addr_eq _ _
            rw [heq] at hsub2
            rw [← h]
            exact hsub2
          · rw [if_neg hw] at h
            injection h with h
            refine Or.inr ⟨by rw [← h], ?_⟩
            rw [← h]

theorem free_inv7 (st : AllocState) (q : Nat) (st1 : AllocState)
    (hids : ∀ b ∈ st.blocks, b.alloc_id < st.g_allocations)
    (hnd : (st.blocks.map MemBlock.alloc_id).Nodup)
    (h : free_unsafe st q = some st1) :
    (∀ b ∈ st1.blocks, b.alloc_id < st1.g_allocations) ∧
    (st1.blocks.map MemBlock.alloc_id).Nodup := by
  rcases free_unsafe_cases st q st1 h with rfl | ⟨hg, hsub⟩
  · exact ⟨hids, hnd⟩
  · have hmap : (st1.blocks.map MemBlock.alloc_id).Sublist
        (st.blocks.map MemBlock.alloc_id) := by
      have hm := hsub.map MemBlock.alloc_id
      rwa [setUsage_map_id] at hm
    refine ⟨?_, hnd.sublist hmap⟩
    intro b hb
    have hmm : b.alloc_id ∈ st.blocks.map MemBlock.alloc_id :=
      hmap.subset (List.mem_map_of_mem _ hb)
    obtain ⟨o, ho, hoid⟩ := List.mem_map.mp hmm
    rw [hg, ← hoid]
    exact hids o ho

theorem malloc_inv7 (env : Env) (st : AllocState) (store : Nat → Nat)
    (s p : Nat) (st1 : AllocState) (sto1 : Nat → Nat)
    (hids : ∀ b ∈ st.blocks, b.alloc_id < st.g_allocations)
    (hnd : (st.blocks.map MemBlock.alloc_id).Nodup)
    (h : malloc_unsafe env st store s = MallocResult.ok p st1 sto1) :
    (∀ b ∈ st1.blocks, b.alloc_id < st1.g_allocations) ∧
    (st1.blocks.map MemBlock.alloc_id).Nodup := by
  obtain ⟨chosen, stc, hcb, hcase⟩ := malloc_state_cases env st store s p st1 sto1 h
  have hstc : (∀ b ∈ stc.blocks, b.alloc_id < stc.g_allocations) ∧
      (stc.blocks.map MemBlock.alloc_id).Nodup := by
    rcases choose_block_cases env st _ chosen stc hcb with ⟨rfl, _⟩ | ⟨_, hid, hbl, hg⟩
    · exact ⟨hids, hnd⟩
    · constructor
      · intro b hb
        rw [hbl] at hb
        rw [hg]
        rcases List.mem_append.mp hb with h1 | h1
        · exact Nat.lt_succ_of_lt (hids b h1)
        · rcases List.mem_cons.mp h1 with h2 | h2
          · rw [h2, hid]
            exact Nat.lt_succ_self _
          · exact absurd h2 (List.not_mem_nil b)
      · rw [hbl, List.map_append, List.nodup_append]
        refine ⟨hnd, by simp, ?_⟩
        intro x hx hx2
        simp only [List.map_cons, List.map_nil, List.mem_cons,
          List.not_mem_nil, or_false] at hx2
        obtain ⟨o, ho, hoid⟩ := List.mem_map.mp hx
        have : o.alloc_id < st.g_allocations := hids o ho
        omega
  rcases hcase with ⟨hz, hst1⟩ | ⟨hz, hst1⟩
  · have hmapeq : st1.blocks.map MemBlock.alloc_id =
        stc.blocks.map MemBlock.alloc_id := by
      rw [hst1]
      exact setUsage_map_id _ _ _
    have hg1 : st1.g_allocations = stc.g_allocations := by rw [hst1]
    refine ⟨?_, hmapeq ▸ hstc.2⟩
    intro b hb
    have hmm : b.alloc_id ∈ stc.blocks.map MemBlock.alloc_id := by
      rw [← hmapeq]
      exact List.mem_map_of_mem _ hb
    obtain ⟨o, ho, hoid⟩ := List.mem_map.mp hmm
    rw [hg1, ← hoid]
    exact hstc.1 o ho
  · have hg1 : st1.g_allocations = stc.g_allocations + 1 := by rw [hst1]
    have hbl1 : st1.blocks = splitInsert chosen.addr
        { addr := (chosen.addr + chosen.usage) % UINT64
          alloc_id := stc.g_allocations
          name := ""
          size := sub64 chosen.size chosen.usage
          usage := (align8 s + HDR_SIZE) % UINT64
          region_start := chosen.region_start
          region_size := chosen.region_size } stc.blocks := by rw [hst1]
    constructor
    · intro b hb
      rw [hbl1] at hb
      rw [hg1]
      rcases splitInsert_mem_id hb with h1 | ⟨o, ho, heq⟩
      · rw [h1]
        exact Nat.lt_succ_self _
      · rw [heq]
        exact Nat.lt_succ_of_lt (hstc.1 o ho)
    · rw [hbl1]
      refine splitInsert_id_nodup _ _ _ hstc.2 ?_
      intro hm
      obtain ⟨o, ho, hoid⟩ := List.mem_map.mp hm
      have := hstc.1 o ho
      simp only at hoid
      omega



theorem malloc_name_inv7 (env : Env) (st : AllocState) (store : Nat → Nat)
    (s : Nat) (nm : String) (p : Nat) (st1 : AllocState) (sto1 : Nat → Nat)
    (hids : ∀ b ∈ st.blocks, b.alloc_id < st.g_allocations)
    (hnd : (st.blocks.map MemBlock.alloc_id).Nodup)
    (h : malloc_name_unsafe env st store s nm = MallocResult.ok p st1 sto1) :
    (∀ b ∈ st1.blocks, b.alloc_id < st1.g_allocations) ∧
    (st1.blocks.map MemBlock.alloc_id).Nodup := by
  unfold malloc_name_unsafe at h
  cases hmal : malloc_unsafe env st store s with
  | crash => rw [hmal] at h; cases h
  | ok q stm som =>
    rw [hmal] at h
    injection h with h1 h2 h3
    obtain ⟨hi, hn⟩ := malloc_inv7 env st store s q stm som hids hnd hmal
    have hmapeq : st1.blocks.map MemBlock.alloc_id =
        stm.blocks.map MemBlock.alloc_id := by
      rw [← h2]
      exact setName_map_id _ _ _
    have hg : st1.g_allocations = stm.g_allocations := by rw [← h2]
    refine ⟨?_, hmapeq ▸ hn⟩
    intro b hb
    have hmm : b.alloc_id ∈ stm.blocks.map MemBlock.alloc_id := by
      rw [← hmapeq]
      exact List.mem_map_of_mem _ hb
    obtain ⟨o, ho, hoid⟩ := List.mem_map.mp hmm
    rw [hg, ← hoid]
    exact hi o ho

theorem calloc_inv7 (env : Env) (st : AllocState) (store : Nat → Nat)
    (n s p : Nat) (st1 : AllocState) (sto1 : Nat → Nat)
    (hids : ∀ b ∈ st.blocks, b.alloc_id < st.g_allocations)
    (hnd : (st.blocks.map MemBlock.alloc_id).Nodup)
    (h : calloc env st store n s = MallocResult.ok p st1 sto1) :
    (∀ b ∈ st1.blocks, b.alloc_id < st1.g_allocations) ∧
    (st1.blocks.map MemBlock.alloc_id).Nodup := by
  unfold calloc at h
  cases hmal : malloc_unsafe env st store ((n * s) % UINT64) with
  | crash => simp only [hmal] at h; cases h
  | ok q stm som =>
    simp only [hmal] at h
    injection h with h1 h2 h3
    exact h2 ▸ malloc_inv7 env st store _ q stm som hids hnd hmal

theorem realloc_inv7 (env : Env) (st : AllocState) (store : Nat → Nat)
    (q s p : Nat) (st1 : AllocState) (sto1 : Nat → Nat)
    (hids : ∀ b ∈ st.blocks, b.alloc_id < st.g_allocations)
    (hnd : (st.blocks.map MemBlock.alloc_id).Nodup)
    (h : realloc_unsafe env st store q s = MallocResult.ok p st1 sto1) :
    (∀ b ∈ st1.blocks, b.alloc_id < st1.g_allocations) ∧
    (st1.blocks.map MemBlock.alloc_id).Nodup := by
  unfold realloc_unsafe at h
  by_cases hq : q = 0
  · rw [if_pos hq] at h
    exact malloc_inv7 env st store s p st1 sto1 hids hnd h
  · rw [if_neg hq] at h
    by_cases hs : s = 0
    · rw [if_pos hs] at h
      cases hfr : free_unsafe st q with
      | none => rw [hfr] at h; cases h
      | some stf =>
        rw [hfr] at h
        injection h with h1 h2 h3
        exact h2 ▸ free_inv7 st q stf hids hnd hfr
    · rw [if_neg hs] at h
      cases hfind : st.blocks.find? (fun b => b.addr == sub64 q HDR_SIZE) with
      | none => simp only [hfind] at h; cases h
      | some current =>
        simp only [hfind] at h
        by_cases hfit : (align8 s + HDR_SIZE) % UINT64 ≤ current.size
        · rw [if_pos hfit] at h
          injection h with h1 h2 h3
          have hmapeq : st1.blocks.map MemBlock.alloc_id =
              st.blocks.map MemBlock.alloc_id := by
            rw [← h2]
            exact setUsage_map_id _ _ _
          have hg : st1.g_allocations = st.g_allocations := by rw [← h2]
          refine ⟨?_, hmapeq ▸ hnd⟩
          intro b hb
          have hmm : b.alloc_id ∈ st.blocks.map MemBlock.alloc_id := by
            rw [← hmapeq]
            exact List.mem_map_of_mem _ hb
          obtain ⟨o, ho, hoid⟩ := List.mem_map.mp hmm
          rw [hg, ← hoid]
          exact hids o ho
        · rw [if_neg hfit] at h
          cases hmal : malloc_unsafe env st store (align8 s) with
          | crash => simp only [hmal] at h; cases h
          | ok np stm som =>
            simp only [hmal] at h
            obtain ⟨hi, hn⟩ := malloc_inv7 env st store _ np stm som hids hnd hmal
            cases hfr : free_unsafe stm q with
            | none => rw [hfr] at h; cases h
            | some stf =>
              rw [hfr] at h
              injection h with h1 h2 h3
              exact h2 ▸ free_inv7 stm q stf hi hn hfr

theorem step_inv7 (env : Env) (st : AllocState) (store : Nat → Nat)
    (c : Call) (st1 : AllocState) (sto1 : Nat → Nat)
    (hids : ∀ b ∈ st.blocks, b.alloc_id < st.g_allocations)
    (hnd : (st.blocks.map MemBlock.alloc_id).Nodup)
    (h : step env st store c = some (st1, sto1)) :
    (∀ b ∈ st1.blocks, b.alloc_id < st1.g_allocations) ∧
    (st1.blocks.map MemBlock.alloc_id).Nodup := by
  cases c with
  | alloc s =>
    simp only [step] at h
    cases hmal : malloc_unsafe env st store s with
    | crash => rw [hmal] at h; cases h
    | ok p stm som =>
      rw [hmal] at h
      injection h with h1
      rw [Prod.mk.injEq] at h1
      exact h1.1 ▸ malloc_inv7 env st store s p stm som hids hnd hmal
  | allocName s nm =>
    simp only [step] at h
    cases hmal : malloc_name_unsafe env st store s nm with
    | crash => rw [hmal] at h; cases h
    | ok p stm som =>
      rw [hmal] at h
      injection h with h1
      rw [Prod.mk.injEq] at h1
      exact h1.1 ▸ malloc_name_inv7 env st store s nm p stm som hids hnd hmal
  | callocC n s =>
    simp only [step] at h
    cases hmal : calloc env st store n s with
    | crash => rw [hmal] at h; cases h
    | ok p stm som =>
      rw [hmal] at h
      injection h with h1
      rw [Prod.mk.injEq] at h1
      exact h1.1 ▸ calloc_inv7 env st store n s p stm som hids hnd hmal
  | freeC q =>
    simp only [step] at h
    unfold free at h
    by_cases hq : q = 0
    · rw [if_pos hq] at h
      injection h with h1
      rw [Prod.mk.injEq] at h1
      exact h1.1 ▸ ⟨hids, hnd⟩
    · rw [if_neg hq] at h
      cases hfr : free_unsafe st q with
      | none => rw [hfr] at h; cases h
      | some stf =>
        rw [hfr] at h
        injection h with h1
        rw [Prod.mk.injEq] at h1
        exact h1.1 ▸ free_inv7 st q stf hids hnd hfr
  | reallocC q s =>
    simp only [step] at h
    cases hmal : realloc_unsafe env st store q s with
    | crash => rw [hmal] at h; cases h
    | ok p stm som =>
      rw [hmal] at h
      injection h with h1
      rw [Prod.mk.injEq] at h1
      exact h1.1 ▸ realloc_inv7 env st store q s p stm som hids hnd hmal

theorem runFrom_inv7 (env : Env) (cs : List Call) :
    ∀ (st : AllocState) (store : Nat → Nat) (st1 : AllocState) (sto1 : Nat → Nat),
    (∀ b ∈ st.blocks, b.alloc_id < st.g_allocations) →
    (st.blocks.map MemBlock.alloc_id).Nodup →
    runFrom env st store cs = some (st1, sto1) →
    (∀ b ∈ st1.blocks, b.alloc_id < st1.g_allocations) ∧
    (st1.blocks.map MemBlock.alloc_id).Nodup := by
  induction cs with
  | nil =>
    intro st store st1 sto1 hids hnd hrun
    injection hrun with hrun
    rw [Prod.mk.injEq] at hrun
    exact hrun.1 ▸ ⟨hids, hnd⟩
  | cons c rest ih =>
    intro st store st1 sto1 hids hnd hrun
    unfold runFrom at hrun
    cases hst : step env st store c with
    | none => rw [hst] at hrun; cases hrun
    | some pr =>
      obtain ⟨stm, som⟩ := pr
      rw [hst] at hrun
      obtain ⟨hi, hn⟩ := step_inv7 env st store c stm som hids hnd hst
      exact ih stm som st1 sto1 hi hn hrun

/-- **C7** (amended).  Across every legal sequence of public calls, the
`alloc_id`s assigned at header creation strictly increase with the global
counter `g_allocations`: in every reachable state the live headers carry
pairwise-distinct ids, all below the counter.  The id of the block *returned*
by an allocation is fresh only when the allocation creates its header (region
expansion or split); reusing a freed header returns its original id, so the
ids of returned blocks do not strictly increase in program order (see the
counterexample). -/
theorem claim_C7 (env : Env) (cs : List Call) (st : AllocState)
    (hrun : runS env cs = some st) :
    (∀ b ∈ st.blocks, b.alloc_id < st.g_allocations) ∧
    (st.blocks.map MemBlock.alloc_id).Nodup := by
  unfold runS at hrun
  cases hr : runFrom env initState store0 cs with
  | none => rw [hr] at hrun; cases hrun
  | some pr =>
    rw [hr] at hrun
    obtain ⟨st1, sto1⟩ := pr
    injection hrun with hrun
    have := runFrom_inv7 env cs initState store0 st1 sto1
      (by intro b hb; exact absurd hb (List.not_mem_nil b))
      (by simp [initState]) hr
    exact hrun ▸ this

theorem claim_C7_witness :
    runS env0 [Call.alloc 16, Call.alloc 16] = some twoBlockState ∧
    (∀ b ∈ twoBlockState.blocks, b.alloc_id < twoBlockState.g_allocations) ∧
    (twoBlockState.blocks.map MemBlock.alloc_id).Nodup := by
  refine ⟨rfl, ?_⟩
  exact claim_C7 env0 [Call.alloc 16, Call.alloc 16] twoBlockState rfl

/-- **C8** (amended).  Named allocation copies the supplied name into the
returned block's header verbatim, by `strcpy`: the stored name equals the
supplied name — nothing is truncated to the field's capacity — and the copy is
always null-terminated, writing `name.length + 1` bytes (past the
fixed-capacity field whenever the name is at least as long as the capacity;
see the counterexample). -/
theorem claim_C8 (env : Env) (st : AllocState) (store : Nat → Nat) (s : Nat)
    (nm : String) (p : Nat) (st1 : AllocState) (sto1 : Nat → Nat)
    (st2 : AllocState)
    (h1 : malloc_unsafe env st store s = MallocResult.ok p st1 sto1)
    (h2 : ( malloc_name_unsafe env st store s nm).stateOf = some st2) :
    st2.blocks = setName st1.blocks (sub64 p HDR_SIZE) nm ∧
    (∀ b ∈ st2.blocks, b.addr = sub64 p HDR_SIZE → b.name = nm) ∧
    (strcpyImage nm).length = nm.length + 1 ∧
    (strcpyImage nm).getLast? = some (Char.ofNat 0) := by
  unfold malloc_name_unsafe at h2
  rw [h1] at h2
  simp only [MallocResult.stateOf, Option.some.injEq] at h2
  subst h2
  refine ⟨rfl, ?_, ?_, ?_⟩
  · intro b hb hba
    obtain ⟨o, ho, heq⟩ := setName_mem hb
    by_cases hoa : o.addr = sub64 p HDR_SIZE
    · rw [heq, if_pos hoa]
    · rw [heq, if_neg hoa] at hba ⊢
      exact absurd hba hoa
  · unfold strcpyImage
    rw [List.length_append]
    rfl
  · unfold strcpyImage
    simp

theorem claim_C8_witness :
    malloc_unsafe env0 initState store0 16 =
      MallocResult.ok 4176
        { blocks := [{ addr := 4096, alloc_id := 0, name := "", size := 4096,
                       usage := 96, region_start := 4096, region_size := 4096 }],
          g_allocations := 1, nextMap := 8192 } store0 ∧
    ( malloc_name_unsafe env0 initState store0 16 longName).stateOf =
      some { blocks := [{ addr := 4096, alloc_id := 0, name := longName, size := 4096,
                          usage := 96, region_start := 4096, region_size := 4096 }],
             g_allocations := 1, nextMap := 8192 } ∧
    ((∀ b ∈ ({ blocks := [{ addr := 4096, alloc_id := 0, name := longName, size := 4096,
                            usage := 96, region_start := 4096, region_size := 4096 }],
               g_allocations := 1, nextMap := 8192 } : AllocState).blocks,
        b.addr = sub64 4176 HDR_SIZE → b.name = longName) ∧
     (strcpyImage longName).length = longName.length + 1 ∧
     (strcpyImage longName).getLast? = some (Char.ofNat 0)) := by
  refine ⟨rfl, rfl, ?_⟩
  have h := claim_C8 env0 initState store0 16 longName 4176
    { blocks := [{ addr := 4096, alloc_id := 0, name := "", size := 4096,
                   usage := 96, region_start := 4096, region_size := 4096 }],
      g_allocations := 1, nextMap := 8192 }
    store0
    { blocks := [{ addr := 4096, alloc_id := 0, name := longName, size := 4096,
                   usage := 96, region_start := 4096, region_size := 4096 }],
      g_allocations := 1, nextMap := 8192 }
    rfl rfl
  exact ⟨h.2.1, h.2.2.1, h.2.2.2⟩

end Allocator
